import Mathlib

/-!
Verification of the popsim simulation core (src/js).

The JavaScript sources are shallowly embedded: JS numbers become `ℚ`
(exact arithmetic) or `Int` for tile coordinates, the possibly-unset /
`Infinity` schedule times become `QInf`, `Math.random()` draws become
explicit parameters, and every mutation becomes a functional record
update.  Definitions follow `src/js/pathfinding.js`, `src/js/city.js`,
`src/js/agent.js`, `src/js/deliveryDriver.js` and `src/js/simulation.js`.
-/

/-- A grid cell, `{x, y}` in the source. -/
abbrev Cell := Int × Int

/-! Tile type constants from `city.js` (`export const TILE = {...}`). -/

namespace TILE

def EMPTY    : Nat := 0
def ROAD     : Nat := 1
def HOUSE    : Nat := 2
def BUSINESS : Nat := 3
def LEISURE  : Nat := 4
def EATERY   : Nat := 5

end TILE

/-- The `City` object as consumed by the simulation core: grid dimensions,
the tile grid (`grid[y][x]`, embedded as a total function, only consulted
in bounds by the core), and the `tileNames` side table
(`getNameAt`, embedded as `names x y`). -/
structure City where
  cols : Int
  rows : Int
  grid : Int → Int → Nat
  names : Int → Int → Option String

/-- `city.getTile(cx, cy)`: bounds-checked tile lookup, `EMPTY` outside. -/
def City.getTile (city : City) (cx cy : Int) : Nat :=
  if cx < 0 ∨ city.cols ≤ cx ∨ cy < 0 ∨ city.rows ≤ cy then TILE.EMPTY
  else city.grid cy cx

/-- `city.getNameAt(cx, cy)`: the name table lookup; `|| null` turns the
empty string (falsy in JS) into no name. -/
def City.getNameAt (city : City) (cx cy : Int) : Option String :=
  match city.names cx cy with
  | some s => if s = "" then none else some s
  | none => none

/-- `key(px, py) = py * cols + px` from `findPath`. -/
def keyOf (cols px py : Int) : Int := py * cols + px

/-- The neighbor-expansion order fixed by `findPath`:
`const dirs = [[0,-1],[0,1],[-1,0],[1,0]]`. -/
def dirs : List (Int × Int) := [(0, -1), (0, 1), (-1, 0), (1, 0)]

/-- `cameFrom` lookup (`Map.get`): the map is embedded as an association
list onto which fresh keys are prepended. -/
def mapGet (cf : List (Int × Option Int)) (k : Int) : Option (Option Int) :=
  match cf with
  | [] => none
  | kv :: rest => if kv.1 = k then some kv.2 else mapGet rest k

/-- Path reconstruction in `findPath`:
`while (ck !== null) { path.unshift({x: ck % cols, y: Math.floor(ck/cols)}); ck = cameFrom.get(ck) }`.
JS `%` is `Int.tmod` and `Math.floor` of the quotient is `Int.fdiv`.
The fuel argument bounds the chain length (the JS loop relies on the
parent chains being acyclic, which holds for every map `findPath` builds);
a missing key ends the walk like the root does. -/
def reconstructPath (cols : Int) (cf : List (Int × Option Int)) : Nat → Int → List Cell
  | 0, _ => []
  | fuel+1, ck =>
    match mapGet cf ck with
    | some (some pk) => reconstructPath cols cf fuel pk ++ [(Int.tmod ck cols, Int.fdiv ck cols)]
    | _ => [(Int.tmod ck cols, Int.fdiv ck cols)]

/-- One iteration of the neighbor loop body in `findPath`
(`for (const [dx, dy] of dirs) { ... }`): bounds check, visited check,
tile check (road, or the exact destination), insertion into `cameFrom`,
then either the early return with the reconstructed path (destination
reached) or a push onto the queue. -/
def processNeighbor (city : City) (ex ey cx cy dx dy : Int)
    (cf : List (Int × Option Int)) (q : List Cell) :
    (List (Int × Option Int) × List Cell) ⊕ List Cell :=
  let nx := cx + dx
  let ny := cy + dy
  if ¬(0 ≤ nx ∧ nx < city.cols ∧ 0 ≤ ny ∧ ny < city.rows) then Sum.inl (cf, q)
  else
    let k := keyOf city.cols nx ny
    if (mapGet cf k).isSome then Sum.inl (cf, q)
    else if city.grid ny nx ≠ TILE.ROAD ∧ ¬(nx = ex ∧ ny = ey) then Sum.inl (cf, q)
    else
      let cf2 := (k, some (keyOf city.cols cx cy)) :: cf
      if nx = ex ∧ ny = ey then Sum.inr (reconstructPath city.cols cf2 cf2.length k)
      else Sum.inl (cf2, q ++ [(nx, ny)])

/-- The neighbor loop of `findPath` over a list of offsets, with the early
return propagated. -/
def expandDirs (city : City) (ex ey cx cy : Int) :
    List (Int × Int) → List (Int × Option Int) → List Cell →
    (List (Int × Option Int) × List Cell) ⊕ List Cell
  | [], cf, q => Sum.inl (cf, q)
  | d :: rest, cf, q =>
    match processNeighbor city ex ey cx cy d.1 d.2 cf q with
    | Sum.inl (cf2, q2) => expandDirs city ex ey cx cy rest cf2 q2
    | Sum.inr p => Sum.inr p

/-- The main BFS loop of `findPath` (`while (head < queue.length)`), with
the array-plus-head-pointer queue embedded as a functional FIFO queue.
The fuel only bounds the number of dequeues; `findPath` supplies
`cols * rows + 1`, which is proved sufficient below. -/
def bfsLoop (city : City) (ex ey : Int) :
    Nat → List (Int × Option Int) → List Cell → Option (List Cell)
  | 0, _, _ => none
  | fuel+1, cf, q =>
    match q with
    | [] => none
    | (cx, cy) :: qrest =>
      match expandDirs city ex ey cx cy dirs cf qrest with
      | Sum.inl (cf2, q2) => bfsLoop city ex ey fuel cf2 q2
      | Sum.inr p => some p

/-- `findPath(city, sx, sy, ex, ey)` from `pathfinding.js`. -/
def findPath (city : City) (sx sy ex ey : Int) : Option (List Cell) :=
  if sx = ex ∧ sy = ey then some [(sx, sy)]
  else
    bfsLoop city ex ey (city.cols.toNat * city.rows.toNat + 1)
      [(keyOf city.cols sx sy, none)] [(sx, sy)]

/-! ### Specification-side predicates for routes (claim C1's wording) -/

/-- A cell of the grid (in bounds). -/
def inb (city : City) (c : Cell) : Prop :=
  0 ≤ c.1 ∧ c.1 < city.cols ∧ 0 ≤ c.2 ∧ c.2 < city.rows

instance (city : City) (c : Cell) : Decidable (inb city c) :=
  inferInstanceAs (Decidable (0 ≤ c.1 ∧ c.1 < city.cols ∧ 0 ≤ c.2 ∧ c.2 < city.rows))

/-- 4-connectedness: `b` is one of the four compass neighbors of `a`. -/
def adjacent (a b : Cell) : Prop := ∃ d ∈ dirs, b = (a.1 + d.1, a.2 + d.2)

instance (a b : Cell) : Decidable (adjacent a b) :=
  inferInstanceAs (Decidable (∃ d ∈ dirs, b = (a.1 + d.1, a.2 + d.2)))

/-- A cell the search may step onto while routing toward `e`: in bounds and
classified walkable-road, except the exact target cell is always accepted. -/
def stepOK (city : City) (e b : Cell) : Prop :=
  inb city b ∧ (city.grid b.2 b.1 = TILE.ROAD ∨ b = e)

instance (city : City) (e b : Cell) : Decidable (stepOK city e b) :=
  inferInstanceAs (Decidable (inb city b ∧ (city.grid b.2 b.1 = TILE.ROAD ∨ b = e)))

/-- One hop of a valid route toward `e`. -/
def stepRel (city : City) (e a b : Cell) : Prop := adjacent a b ∧ stepOK city e b

instance (city : City) (e a b : Cell) : Decidable (stepRel city e a b) :=
  inferInstanceAs (Decidable (adjacent a b ∧ stepOK city e b))

/-- The claim's notion of a route from `s` to `e`: the sequence begins at
`s`, ends at `e`, consecutive cells are 4-connected, and every cell other
than the first is walkable-road or the exact target cell. -/
def ValidSeq (city : City) (s e : Cell) (p : List Cell) : Prop :=
  p.head? = some s ∧ p.getLast? = some e ∧ List.Chain' (stepRel city e) p

instance (city : City) (s e : Cell) (p : List Cell) : Decidable (ValidSeq city s e p) :=
  inferInstanceAs (Decidable (p.head? = some s ∧ p.getLast? = some e ∧
    List.Chain' (stepRel city e) p))

/-- `Hops city e a z n`: there is a valid route toward `e` from `a` to `z`
with exactly `n` hops. -/
inductive Hops (city : City) (e : Cell) : Cell → Cell → Nat → Prop
  | refl (a : Cell) : Hops city e a a 0
  | step {a b z : Cell} {n : Nat} :
      stepRel city e a b → Hops city e b z n → Hops city e a z (n + 1)

/-! ### Basic facts about keys, decoding, and the `cameFrom` map -/

/-- The keys present in the embedded `cameFrom` map. -/
def cfKeys (cf : List (Int × Option Int)) : List Int := cf.map Prod.fst

theorem mapGet_isSome_iff {cf : List (Int × Option Int)} {k : Int} :
    (mapGet cf k).isSome = true ↔ k ∈ cfKeys cf := by
  induction cf with
  | nil => simp [mapGet, cfKeys]
  | cons kv rest ih =>
    by_cases h : kv.1 = k
    · simp [mapGet, h, cfKeys]
    · simp only [mapGet, if_neg h, cfKeys, List.map_cons, List.mem_cons]
      rw [ih]
      simp [cfKeys, Ne.symm h]

theorem mapGet_eq_none_iff {cf : List (Int × Option Int)} {k : Int} :
    mapGet cf k = none ↔ k ∉ cfKeys cf := by
  rw [← mapGet_isSome_iff]
  cases mapGet cf k <;> simp

theorem mapGet_mem {cf : List (Int × Option Int)} {k : Int} {v : Option Int}
    (h : mapGet cf k = some v) : (k, v) ∈ cf := by
  induction cf with
  | nil => simp [mapGet] at h
  | cons kv rest ih =>
    by_cases hk : kv.1 = k
    · simp only [mapGet, if_pos hk] at h
      cases h
      have : kv = (k, kv.2) := by rw [← hk]
      rw [← this]
      exact List.mem_cons_self _ _
    · simp only [mapGet, if_neg hk] at h
      exact List.mem_cons_of_mem _ (ih h)

theorem mapGet_eq_of_mem {cf : List (Int × Option Int)} {k : Int} {v : Option Int}
    (hnd : (cfKeys cf).Nodup) (h : (k, v) ∈ cf) : mapGet cf k = some v := by
  induction cf with
  | nil => simp at h
  | cons kv rest ih =>
    simp only [cfKeys, List.map_cons, List.nodup_cons] at hnd
    rcases List.mem_cons.mp h with h1 | h1
    · subst h1; simp [mapGet]
    · have hne : kv.1 ≠ k := by
        intro he
        exact hnd.1 (he ▸ (List.mem_map.mpr ⟨(k, v), h1, rfl⟩))
      simp only [mapGet, if_neg hne]
      exact ih hnd.2 h1

theorem mapGet_cons_ne {cf : List (Int × Option Int)} {k k1 : Int} {v : Option Int}
    (h : k1 ≠ k) : mapGet ((k1, v) :: cf) k = mapGet cf k := by
  simp [mapGet, h]

theorem keyOf_nonneg {city : City} {c : Cell} (h : inb city c) :
    0 ≤ keyOf city.cols c.1 c.2 := by
  obtain ⟨hx0, hxc, hy0, hyr⟩ := h
  have hc : 0 ≤ city.cols := le_of_lt (lt_of_le_of_lt hx0 hxc)
  unfold keyOf
  positivity

theorem cols_pos {city : City} {c : Cell} (h : inb city c) : 0 < city.cols :=
  lt_of_le_of_lt h.1 h.2.1

theorem rows_pos {city : City} {c : Cell} (h : inb city c) : 0 < city.rows :=
  lt_of_le_of_lt h.2.2.1 h.2.2.2

theorem keyOf_lt {city : City} {c : Cell} (h : inb city c) :
    keyOf city.cols c.1 c.2 < city.cols * city.rows := by
  obtain ⟨hx0, hxc, hy0, hyr⟩ := h
  have hc : (0 : Int) < city.cols := lt_of_le_of_lt hx0 hxc
  unfold keyOf
  calc c.2 * city.cols + c.1 < c.2 * city.cols + city.cols := by omega
    _ = (c.2 + 1) * city.cols := by ring
    _ ≤ city.rows * city.cols := by
        apply mul_le_mul_of_nonneg_right _ (le_of_lt hc)
        omega
    _ = city.cols * city.rows := mul_comm _ _

theorem keyOf_decode {city : City} {c : Cell} (h : inb city c) :
    ((keyOf city.cols c.1 c.2).tmod city.cols, (keyOf city.cols c.1 c.2).fdiv city.cols) = c := by
  obtain ⟨hx0, hxc, hy0, hyr⟩ := h
  have hc : (0 : Int) < city.cols := lt_of_le_of_lt hx0 hxc
  have hk : keyOf city.cols c.1 c.2 = c.1 + city.cols * c.2 := by unfold keyOf; ring
  have h1 : (keyOf city.cols c.1 c.2).tmod city.cols = c.1 := by
    rw [Int.tmod_eq_emod (keyOf_nonneg ⟨hx0, hxc, hy0, hyr⟩) (le_of_lt hc), hk,
      Int.add_mul_emod_self_left, Int.emod_eq_of_lt hx0 hxc]
  have h2 : (keyOf city.cols c.1 c.2).fdiv city.cols = c.2 := by
    rw [Int.fdiv_eq_ediv _ (le_of_lt hc), hk, Int.add_mul_ediv_left _ _ (ne_of_gt hc),
      Int.ediv_eq_zero_of_lt hx0 hxc, zero_add]
  rw [h1, h2]

theorem keyOf_inj {city : City} {a b : Cell} (ha : inb city a) (hb : inb city b)
    (h : keyOf city.cols a.1 a.2 = keyOf city.cols b.1 b.2) : a = b := by
  have := keyOf_decode ha
  rw [h, keyOf_decode hb] at this
  exact this.symm

/-! ### Path reconstruction: stability and specification -/

/-- Every parent pointer stored in the map resolves to a key of the map. -/
def ParentsClosed (cf : List (Int × Option Int)) : Prop :=
  ∀ kv ∈ cf, ∀ pk : Int, kv.2 = some pk → pk ∈ cfKeys cf

theorem reconstructPath_stable {cols : Int} {cf : List (Int × Option Int)}
    {k1 : Int} {v : Option Int} (hpc : ParentsClosed cf) (hfresh : k1 ∉ cfKeys cf) :
    ∀ (f : Nat) (k : Int), k ∈ cfKeys cf →
      reconstructPath cols ((k1, v) :: cf) f k = reconstructPath cols cf f k := by
  intro f
  induction f with
  | zero => intro k _; rfl
  | succ f ih =>
    intro k hk
    have hne : k1 ≠ k := fun he => hfresh (he ▸ hk)
    show (match mapGet ((k1, v) :: cf) k with
      | some (some pk) => reconstructPath cols ((k1, v) :: cf) f pk ++ [(Int.tmod k cols, Int.fdiv k cols)]
      | _ => [(Int.tmod k cols, Int.fdiv k cols)]) = _
    rw [mapGet_cons_ne hne]
    cases hmg : mapGet cf k with
    | none => simp [reconstructPath, hmg]
    | some vv =>
      cases vv with
      | none => simp [reconstructPath, hmg]
      | some pk =>
        have hpk : pk ∈ cfKeys cf := hpc _ (mapGet_mem hmg) pk rfl
        simp only [reconstructPath, hmg]
        rw [ih pk hpk]

/-- The reconstructed-path distance of a key (hop count of the path the
source's reconstruction loop would produce from the current map). -/
def rdk (city : City) (cf : List (Int × Option Int)) (k : Int) : Nat :=
  (reconstructPath city.cols cf cf.length k).length - 1

/-- `rdk` of a cell's key. -/
def rdc (city : City) (cf : List (Int × Option Int)) (c : Cell) : Nat :=
  rdk city cf (keyOf city.cols c.1 c.2)

/-- Specification of a visited key: it is the key of an in-bounds cell, and
reconstruction from it (with any sufficient fuel) yields a fixed route from
the start to that cell whose cells after the first are in-bounds road. -/
def ReconOf (city : City) (s e : Cell) (cf : List (Int × Option Int)) (k : Int) : Prop :=
  ∃ (c : Cell) (p : List Cell),
    inb city c ∧ k = keyOf city.cols c.1 c.2 ∧
    (∀ f, cf.length ≤ f → reconstructPath city.cols cf f k = p) ∧
    p.head? = some s ∧ p.getLast? = some c ∧ List.Chain' (stepRel city e) p ∧
    (∀ x ∈ p.tail, inb city x ∧ city.grid x.2 x.1 = TILE.ROAD)

theorem ReconOf_rdk {city : City} {s e : Cell} {cf : List (Int × Option Int)} {k : Int}
    {c : Cell} {p : List Cell}
    (hf : ∀ f, cf.length ≤ f → reconstructPath city.cols cf f k = p) :
    rdk city cf k = p.length - 1 := by
  unfold rdk
  rw [hf cf.length le_rfl]

theorem ReconOf_stable {city : City} {s e : Cell} {cf : List (Int × Option Int)}
    {k k1 : Int} {v : Option Int}
    (h : ReconOf city s e cf k) (hpc : ParentsClosed cf) (hfresh : k1 ∉ cfKeys cf)
    (hk : k ∈ cfKeys cf) : ReconOf city s e ((k1, v) :: cf) k := by
  obtain ⟨c, p, hcinb, hkey, hf, hhd, hlast, hch, htl⟩ := h
  refine ⟨c, p, hcinb, hkey, ?_, hhd, hlast, hch, htl⟩
  intro f hfle
  rw [reconstructPath_stable hpc hfresh f k hk]
  exact hf f (by simpa using Nat.le_of_succ_le hfle)

theorem rdk_stable {city : City} {s e : Cell} {cf : List (Int × Option Int)}
    {k k1 : Int} {v : Option Int}
    (h : ReconOf city s e cf k) (hpc : ParentsClosed cf) (hfresh : k1 ∉ cfKeys cf)
    (hk : k ∈ cfKeys cf) : rdk city ((k1, v) :: cf) k = rdk city cf k := by
  obtain ⟨c, p, hcinb, hkey, hf, _⟩ := h
  unfold rdk
  rw [reconstructPath_stable hpc hfresh _ k hk, hf _ (by simp), hf _ le_rfl]

theorem recon_root {city : City} {s : Cell} {cf : List (Int × Option Int)}
    (hnd : (cfKeys cf).Nodup) (hroot : (keyOf city.cols s.1 s.2, none) ∈ cf)
    (hs : inb city s) :
    ∀ f, 1 ≤ f → reconstructPath city.cols cf f (keyOf city.cols s.1 s.2) = [s] := by
  intro f hf
  obtain ⟨f', rfl⟩ : ∃ f', f = f' + 1 := ⟨f - 1, by omega⟩
  have hget : mapGet cf (keyOf city.cols s.1 s.2) = some none := mapGet_eq_of_mem hnd hroot
  simp only [reconstructPath, hget]
  rw [show ((keyOf city.cols s.1 s.2).tmod city.cols, (keyOf city.cols s.1 s.2).fdiv city.cols) = s
    from keyOf_decode hs]

theorem ReconOf_root {city : City} {s e : Cell} {cf : List (Int × Option Int)}
    (hnd : (cfKeys cf).Nodup) (hroot : (keyOf city.cols s.1 s.2, none) ∈ cf)
    (hs : inb city s) : ReconOf city s e cf (keyOf city.cols s.1 s.2) := by
  have hlen : 1 ≤ cf.length := List.length_pos.mpr (List.ne_nil_of_mem hroot)
  exact ⟨s, [s], hs, rfl, fun f hfle => recon_root hnd hroot hs f (le_trans hlen hfle),
    rfl, rfl, List.chain'_singleton _, by simp⟩

theorem rdk_root {city : City} {s : Cell} {cf : List (Int × Option Int)}
    (hnd : (cfKeys cf).Nodup) (hroot : (keyOf city.cols s.1 s.2, none) ∈ cf)
    (hs : inb city s) : rdk city cf (keyOf city.cols s.1 s.2) = 0 := by
  unfold rdk
  rw [recon_root hnd hroot hs cf.length (List.length_pos.mpr (List.ne_nil_of_mem hroot))]
  rfl

/-- Inserting a fresh road neighbor `nb` of a visited cell `c` into the map
yields a visited key whose reconstruction is the route of `c` extended by
one hop, so its distance is `rdk c + 1`. -/
theorem ReconOf_new {city : City} {s e : Cell} {cf : List (Int × Option Int)} {c nb : Cell}
    (hrc : ReconOf city s e cf (keyOf city.cols c.1 c.2))
    (hpc : ParentsClosed cf) (hcinb : inb city c)
    (hfresh : keyOf city.cols nb.1 nb.2 ∉ cfKeys cf)
    (hcm : keyOf city.cols c.1 c.2 ∈ cfKeys cf)
    (hnb : inb city nb) (hadj : adjacent c nb)
    (hroad : city.grid nb.2 nb.1 = TILE.ROAD) :
    ReconOf city s e ((keyOf city.cols nb.1 nb.2, some (keyOf city.cols c.1 c.2)) :: cf)
        (keyOf city.cols nb.1 nb.2) ∧
      rdk city ((keyOf city.cols nb.1 nb.2, some (keyOf city.cols c.1 c.2)) :: cf)
        (keyOf city.cols nb.1 nb.2) = rdk city cf (keyOf city.cols c.1 c.2) + 1 := by
  obtain ⟨c', p, hcinb', hkey, hf, hhd, hlast, hch, htl⟩ := hrc
  have hcc : c' = c := keyOf_inj hcinb' hcinb hkey.symm
  subst hcc
  have hpne : p ≠ [] := by
    intro h; rw [h] at hhd; simp at hhd
  have hreceq : ∀ f, ((keyOf city.cols nb.1 nb.2, some (keyOf city.cols c'.1 c'.2)) :: cf).length ≤ f →
      reconstructPath city.cols ((keyOf city.cols nb.1 nb.2, some (keyOf city.cols c'.1 c'.2)) :: cf)
        f (keyOf city.cols nb.1 nb.2) = p ++ [nb] := by
    intro f hfle
    simp only [List.length_cons] at hfle
    obtain ⟨f', rfl⟩ : ∃ f', f = f' + 1 := ⟨f - 1, by omega⟩
    have hget : mapGet ((keyOf city.cols nb.1 nb.2, some (keyOf city.cols c'.1 c'.2)) :: cf)
        (keyOf city.cols nb.1 nb.2) = some (some (keyOf city.cols c'.1 c'.2)) := by
      simp [mapGet]
    simp only [reconstructPath, hget]
    rw [reconstructPath_stable hpc hfresh f' _ hcm, hf f' (by omega),
      show ((keyOf city.cols nb.1 nb.2).tmod city.cols,
        (keyOf city.cols nb.1 nb.2).fdiv city.cols) = nb from keyOf_decode hnb]
  constructor
  · refine ⟨nb, p ++ [nb], hnb, rfl, hreceq, ?_, List.getLast?_concat p, ?_, ?_⟩
    · cases p with
      | nil => exact absurd rfl hpne
      | cons a t => simpa using hhd
    · rw [List.chain'_append]
      refine ⟨hch, List.chain'_singleton _, ?_⟩
      intro x hx y hy
      rw [hlast] at hx
      simp only [Option.mem_def, Option.some.injEq] at hx
      simp only [List.head?_cons, Option.mem_def, Option.some.injEq] at hy
      subst hx; subst hy
      exact ⟨hadj, hnb, Or.inl hroad⟩
    · cases p with
      | nil => exact absurd rfl hpne
      | cons a t =>
        intro x hx
        simp only [List.cons_append, List.tail_cons, List.mem_append,
          List.mem_singleton] at hx
        rcases hx with hx | hx
        · exact htl x hx
        · subst hx; exact ⟨hnb, hroad⟩
  · have h1 : rdk city ((keyOf city.cols nb.1 nb.2, some (keyOf city.cols c'.1 c'.2)) :: cf)
        (keyOf city.cols nb.1 nb.2) = (p ++ [nb]).length - 1 := by
      unfold rdk; rw [hreceq _ le_rfl]
    have h2 : rdk city cf (keyOf city.cols c'.1 c'.2) = p.length - 1 := by
      unfold rdk; rw [hf _ le_rfl]
    rw [h1, h2]
    have : 1 ≤ p.length := List.length_pos.mpr hpne
    simp only [List.length_append, List.length_singleton]
    omega

theorem toNat_mul_of_nonneg {a b : Int} (ha : 0 ≤ a) (hb : 0 ≤ b) :
    (a * b).toNat = a.toNat * b.toNat := by
  zify [mul_nonneg ha hb]
  rw [Int.toNat_of_nonneg ha, Int.toNat_of_nonneg hb]
  exact Int.toNat_of_nonneg (mul_nonneg ha hb)

/-- A `cameFrom` map whose keys are distinct keys of in-bounds cells has at
most `cols * rows` entries. -/
theorem cf_length_le {city : City} {s e : Cell} {cf : List (Int × Option Int)}
    (hnd : (cfKeys cf).Nodup)
    (hrec : ∀ kv ∈ cf, ReconOf city s e cf kv.1) :
    cf.length ≤ city.cols.toNat * city.rows.toNat := by
  cases cf with
  | nil => simp
  | cons kv0 rest =>
    obtain ⟨c0, p0, hc0, _⟩ := hrec kv0 (List.mem_cons_self _ _)
    have hcols : 0 < city.cols := cols_pos hc0
    have hrows : 0 < city.rows := rows_pos hc0
    set cf := kv0 :: rest
    have hlen : cf.length = (cfKeys cf).length := by simp [cfKeys]
    have hsub : (cfKeys cf).toFinset ⊆ Finset.Ico (0 : ℤ) (city.cols * city.rows) := by
      intro k hk
      rw [List.mem_toFinset] at hk
      obtain ⟨kv, hkv, hke⟩ := List.mem_map.mp hk
      obtain ⟨c, p, hcinb, hkey, _⟩ := hrec kv hkv
      rw [Finset.mem_Ico, ← hke, hkey]
      exact ⟨keyOf_nonneg hcinb, keyOf_lt hcinb⟩
    calc cf.length = (cfKeys cf).toFinset.card := by
          rw [List.toFinset_card_of_nodup hnd, hlen]
      _ ≤ (Finset.Ico (0 : ℤ) (city.cols * city.rows)).card := Finset.card_le_card hsub
      _ = (city.cols * city.rows).toNat := by rw [Int.card_Ico]; ring_nf
      _ = city.cols.toNat * city.rows.toNat :=
          toNat_mul_of_nonneg (le_of_lt hcols) (le_of_lt hrows)

/-! ### The BFS loop invariant -/

/-- Invariant of the `cameFrom` map during the search for a route from `s`
to `e` (with `s ≠ e`): keys are distinct keys of in-bounds cells, parent
pointers resolve, the start is the root, the target was never inserted
(insertion of the target returns immediately instead), and reconstruction
from any key yields a fixed valid route from `s` to that key's cell. -/
structure CfInv (city : City) (s e : Cell) (cf : List (Int × Option Int)) : Prop where
  nodup : (cfKeys cf).Nodup
  parents : ParentsClosed cf
  root : (keyOf city.cols s.1 s.2, none) ∈ cf
  target : keyOf city.cols e.1 e.2 ∉ cfKeys cf
  recon : ∀ kv ∈ cf, ReconOf city s e cf kv.1

/-- Invariant of the whole BFS state at the top of the `while` loop. -/
structure BfsInv (city : City) (s e : Cell) (cf : List (Int × Option Int))
    (q : List Cell) : Prop where
  cfi : CfInv city s e cf
  qmem : ∀ c ∈ q, inb city c ∧ keyOf city.cols c.1 c.2 ∈ cfKeys cf
  qnodup : q.Nodup
  qsorted : List.Chain' (fun a b => rdc city cf a ≤ rdc city cf b) q
  qpair : ∀ a ∈ q, ∀ b ∈ q, rdc city cf b ≤ rdc city cf a + 1
  vbound : ∀ kv ∈ cf, ∀ h, q.head? = some h → rdk city cf kv.1 ≤ rdc city cf h + 1
  closure : ∀ kv ∈ cf, ∀ v : Cell, kv.1 = keyOf city.cols v.1 v.2 → inb city v → v ∉ q →
      ∀ z, stepRel city e v z → keyOf city.cols z.1 z.2 ∈ cfKeys cf ∧
        rdk city cf (keyOf city.cols z.1 z.2) ≤ rdk city cf kv.1 + 1

/-- Invariant holding part-way through the expansion of the neighbors of
the dequeued cell `c` (whose distance is `rc`), with `ds` the offsets not
yet processed; `m0` records the measure used for fuel sufficiency. -/
structure MidInv (city : City) (s e : Cell) (c : Cell) (rc m0 : Nat)
    (ds : List (Int × Int)) (cf : List (Int × Option Int)) (q : List Cell) : Prop where
  cfi : CfInv city s e cf
  qmem : ∀ a ∈ q, inb city a ∧ keyOf city.cols a.1 a.2 ∈ cfKeys cf
  qnodup : q.Nodup
  qsorted : List.Chain' (fun a b => rdc city cf a ≤ rdc city cf b) q
  qpair : ∀ a ∈ q, ∀ b ∈ q, rdc city cf b ≤ rdc city cf a + 1
  cmem : keyOf city.cols c.1 c.2 ∈ cfKeys cf
  cinb : inb city c
  cnotq : c ∉ q
  crd : rdc city cf c = rc
  vboundc : ∀ kv ∈ cf, rdk city cf kv.1 ≤ rc + 1
  qabove : ∀ a ∈ q, rc ≤ rdc city cf a
  closureO : ∀ kv ∈ cf, ∀ v : Cell, kv.1 = keyOf city.cols v.1 v.2 → inb city v →
      v ∉ q → v ≠ c → ∀ z, stepRel city e v z → keyOf city.cols z.1 z.2 ∈ cfKeys cf ∧
        rdk city cf (keyOf city.cols z.1 z.2) ≤ rdk city cf kv.1 + 1
  closureC : ∀ z : Cell, stepRel city e c z → (∀ d ∈ ds, z ≠ (c.1 + d.1, c.2 + d.2)) →
      keyOf city.cols z.1 z.2 ∈ cfKeys cf ∧ rdk city cf (keyOf city.cols z.1 z.2) ≤ rc + 1
  mcount : q.length + (city.cols.toNat * city.rows.toNat - cf.length) = m0

/-- What the early return inside the neighbor loop delivers: the
reconstructed route is a valid shortest route of `rc + 1` hops whose
interior cells are in-bounds road. -/
def ReturnSpec (city : City) (s e : Cell) (rc : Nat) (p : List Cell) : Prop :=
  p.length = rc + 2 ∧ ValidSeq city s e p ∧
    ∃ mid, p = s :: (mid ++ [e]) ∧ ∀ x ∈ mid, inb city x ∧ city.grid x.2 x.1 = TILE.ROAD

/-! ### Chain helper lemmas -/

theorem chain_head_le {f : Cell → Nat} :
    ∀ {l : List Cell}, List.Chain' (fun a b => f a ≤ f b) l →
      ∀ {h}, l.head? = some h → ∀ x ∈ l, f h ≤ f x := by
  intro l
  induction l with
  | nil => simp
  | cons a t ih =>
    intro hc h hh x hx
    simp only [List.head?_cons, Option.some.injEq] at hh
    subst hh
    rcases List.mem_cons.mp hx with rfl | hx
    · exact le_rfl
    · cases t with
      | nil => simp at hx
      | cons b t2 =>
        rw [List.chain'_cons] at hc
        exact le_trans hc.1 (ih hc.2 rfl x hx)

theorem chain_append_singleton {R : Cell → Cell → Prop} {l : List Cell} {a b : Cell}
    (hc : List.Chain' R l) (hl : l.getLast? = some a) (hr : R a b) :
    List.Chain' R (l ++ [b]) := by
  rw [List.chain'_append]
  refine ⟨hc, List.chain'_singleton _, ?_⟩
  intro x hx y hy
  rw [hl] at hx
  simp only [Option.mem_def, Option.some.injEq] at hx
  simp only [List.head?_cons, Option.mem_def, Option.some.injEq] at hy
  subst hx; subst hy
  exact hr

theorem mem_cfKeys {cf : List (Int × Option Int)} {k : Int} :
    k ∈ cfKeys cf ↔ ∃ kv ∈ cf, kv.1 = k := by
  simp [cfKeys, List.mem_map]

theorem adjacent_of_dir {c : Cell} {d : Int × Int} (hd : d ∈ dirs) :
    adjacent c (c.1 + d.1, c.2 + d.2) := ⟨d, hd, rfl⟩

theorem chain_le_congr {f g : Cell → Nat} :
    ∀ {l : List Cell}, (∀ a ∈ l, f a = g a) →
      List.Chain' (fun a b => f a ≤ f b) l → List.Chain' (fun a b => g a ≤ g b) l := by
  intro l
  induction l with
  | nil => intro _ _; exact List.chain'_nil
  | cons a t ih =>
    intro hfg hc
    cases t with
    | nil => exact List.chain'_singleton _
    | cons b t2 =>
      rw [List.chain'_cons] at hc ⊢
      constructor
      · rw [← hfg a (by simp), ← hfg b (by simp)]
        exact hc.1
      · exact ih (fun x hx => hfg x (List.mem_cons_of_mem _ hx)) hc.2

theorem rdk_stable_of_cfi {city : City} {s e : Cell} {cf : List (Int × Option Int)}
    (hc : CfInv city s e cf) {k1 : Int} {v : Option Int}
    (hfresh : k1 ∉ cfKeys cf) {k : Int} (hk : k ∈ cfKeys cf) :
    rdk city ((k1, v) :: cf) k = rdk city cf k := by
  obtain ⟨kv, hkv, rfl⟩ := mem_cfKeys.mp hk
  exact rdk_stable (hc.recon kv hkv) hc.parents hfresh hk

/-- Inserting a fresh in-bounds road neighbor of a visited non-target cell
preserves the `cameFrom` invariant. -/
theorem CfInv_insert {city : City} {s e : Cell} {cf : List (Int × Option Int)} {c nb : Cell}
    (hc : CfInv city s e cf) (hcinb : inb city c)
    (hcm : keyOf city.cols c.1 c.2 ∈ cfKeys cf)
    (hfresh : keyOf city.cols nb.1 nb.2 ∉ cfKeys cf)
    (hnb : inb city nb) (hne : nb ≠ e) (he : inb city e)
    (hadj : adjacent c nb) (hroad : city.grid nb.2 nb.1 = TILE.ROAD) :
    CfInv city s e ((keyOf city.cols nb.1 nb.2, some (keyOf city.cols c.1 c.2)) :: cf) := by
  obtain ⟨kvc, hkvc, hkvceq⟩ := mem_cfKeys.mp hcm
  have hkc : ∀ (kv : Int × Option Int) (cf2 : List (Int × Option Int)),
      cfKeys (kv :: cf2) = kv.1 :: cfKeys cf2 := fun _ _ => rfl
  constructor
  · rw [hkc, List.nodup_cons]
    exact ⟨hfresh, hc.nodup⟩
  · intro kv hkv pk hpk
    rw [hkc, List.mem_cons]
    rcases List.mem_cons.mp hkv with rfl | hkv
    · cases hpk
      exact Or.inr hcm
    · exact Or.inr (hc.parents kv hkv pk hpk)
  · exact List.mem_cons_of_mem _ hc.root
  · intro hmem
    rw [hkc, List.mem_cons] at hmem
    rcases hmem with heq | hmem2
    · exact hne (keyOf_inj he hnb heq).symm
    · exact hc.target hmem2
  · intro kv hkv
    rcases List.mem_cons.mp hkv with rfl | hkv
    · exact (ReconOf_new (hkvceq ▸ hc.recon kvc hkvc) hc.parents hcinb hfresh hcm
        hnb hadj hroad).1
    · exact ReconOf_stable (hc.recon kv hkv) hc.parents hfresh
        (mem_cfKeys.mpr ⟨kv, hkv, rfl⟩)

/-- Discarding an offset that inserted no new cell: the mid-expansion
invariant carries over as long as the discarded neighbor (if it is a legal
step from `c` at all) is already visited within distance `rc + 1`. -/
theorem MidInv_drop {city : City} {s e c : Cell} {rc m0 : Nat} {d : Int × Int}
    {ds : List (Int × Int)} {cf : List (Int × Option Int)} {q : List Cell}
    (hinv : MidInv city s e c rc m0 (d :: ds) cf q)
    (hz : ∀ z : Cell, stepRel city e c z → z = (c.1 + d.1, c.2 + d.2) →
      keyOf city.cols z.1 z.2 ∈ cfKeys cf ∧ rdk city cf (keyOf city.cols z.1 z.2) ≤ rc + 1) :
    MidInv city s e c rc m0 ds cf q :=
  { hinv with
    closureC := by
      intro z hstep hnot
      by_cases hzd : z = (c.1 + d.1, c.2 + d.2)
      · exact hz z hstep hzd
      · exact hinv.closureC z hstep (by
          intro d' hd'
          rcases List.mem_cons.mp hd' with rfl | hd'
          · exact hzd
          · exact hnot d' hd') }

/-! ### Case equations for `processNeighbor` -/

theorem processNeighbor_oob {city : City} {ex ey cx cy dx dy : Int}
    {cf : List (Int × Option Int)} {q : List Cell}
    (hb : ¬(0 ≤ cx + dx ∧ cx + dx < city.cols ∧ 0 ≤ cy + dy ∧ cy + dy < city.rows)) :
    processNeighbor city ex ey cx cy dx dy cf q = Sum.inl (cf, q) := by
  simp [processNeighbor, hb]

theorem processNeighbor_visited {city : City} {ex ey cx cy dx dy : Int}
    {cf : List (Int × Option Int)} {q : List Cell}
    (hb : 0 ≤ cx + dx ∧ cx + dx < city.cols ∧ 0 ≤ cy + dy ∧ cy + dy < city.rows)
    (hvis : (mapGet cf (keyOf city.cols (cx + dx) (cy + dy))).isSome = true) :
    processNeighbor city ex ey cx cy dx dy cf q = Sum.inl (cf, q) := by
  simp [processNeighbor, hb, hvis]

theorem processNeighbor_blocked {city : City} {ex ey cx cy dx dy : Int}
    {cf : List (Int × Option Int)} {q : List Cell}
    (hb : 0 ≤ cx + dx ∧ cx + dx < city.cols ∧ 0 ≤ cy + dy ∧ cy + dy < city.rows)
    (hvis : ¬(mapGet cf (keyOf city.cols (cx + dx) (cy + dy))).isSome = true)
    (hroad : city.grid (cy + dy) (cx + dx) ≠ TILE.ROAD)
    (hne : ¬(cx + dx = ex ∧ cy + dy = ey)) :
    processNeighbor city ex ey cx cy dx dy cf q = Sum.inl (cf, q) := by
  simp [processNeighbor, hb, hvis, hroad, hne]

theorem processNeighbor_found {city : City} {ex ey cx cy dx dy : Int}
    {cf : List (Int × Option Int)} {q : List Cell}
    (hb : 0 ≤ cx + dx ∧ cx + dx < city.cols ∧ 0 ≤ cy + dy ∧ cy + dy < city.rows)
    (hvis : ¬(mapGet cf (keyOf city.cols (cx + dx) (cy + dy))).isSome = true)
    (htgt : cx + dx = ex ∧ cy + dy = ey) :
    processNeighbor city ex ey cx cy dx dy cf q =
      Sum.inr (reconstructPath city.cols
        ((keyOf city.cols (cx + dx) (cy + dy), some (keyOf city.cols cx cy)) :: cf)
        (cf.length + 1) (keyOf city.cols (cx + dx) (cy + dy))) := by
  have hb2 : 0 ≤ ex ∧ ex < city.cols ∧ 0 ≤ ey ∧ ey < city.rows := by
    rw [← htgt.1, ← htgt.2]; exact hb
  have hvis2 : ¬(mapGet cf (keyOf city.cols ex ey)).isSome = true := by
    rw [← htgt.1, ← htgt.2]; exact hvis
  simp [processNeighbor, htgt.1, htgt.2, hb2, hvis2]

theorem processNeighbor_push {city : City} {ex ey cx cy dx dy : Int}
    {cf : List (Int × Option Int)} {q : List Cell}
    (hb : 0 ≤ cx + dx ∧ cx + dx < city.cols ∧ 0 ≤ cy + dy ∧ cy + dy < city.rows)
    (hvis : ¬(mapGet cf (keyOf city.cols (cx + dx) (cy + dy))).isSome = true)
    (hroad : city.grid (cy + dy) (cx + dx) = TILE.ROAD)
    (hne : ¬(cx + dx = ex ∧ cy + dy = ey)) :
    processNeighbor city ex ey cx cy dx dy cf q =
      Sum.inl ((keyOf city.cols (cx + dx) (cy + dy), some (keyOf city.cols cx cy)) :: cf,
        q ++ [(cx + dx, cy + dy)]) := by
  simp [processNeighbor, hb, hvis, hroad, hne]

/-- One neighbor-offset iteration preserves the mid-expansion invariant, or
returns a path satisfying `ReturnSpec`. -/
theorem processNeighbor_step {city : City} {s e c : Cell} {rc m0 : Nat}
    {d : Int × Int} {ds : List (Int × Int)}
    {cf : List (Int × Option Int)} {q : List Cell}
    (hd : d ∈ dirs) (he : inb city e)
    (hinv : MidInv city s e c rc m0 (d :: ds) cf q) :
    (∀ cf2 q2, processNeighbor city e.1 e.2 c.1 c.2 d.1 d.2 cf q = Sum.inl (cf2, q2) →
      MidInv city s e c rc m0 ds cf2 q2) ∧
    (∀ p, processNeighbor city e.1 e.2 c.1 c.2 d.1 d.2 cf q = Sum.inr p →
      ReturnSpec city s e rc p) := by
  have hvb : ∀ k ∈ cfKeys cf, rdk city cf k ≤ rc + 1 := by
    intro k hk
    obtain ⟨kv, hkv, rfl⟩ := mem_cfKeys.mp hk
    exact hinv.vboundc kv hkv
  by_cases hb : 0 ≤ c.1 + d.1 ∧ c.1 + d.1 < city.cols ∧ 0 ≤ c.2 + d.2 ∧ c.2 + d.2 < city.rows
  case neg =>
    rw [processNeighbor_oob hb]
    constructor
    · intro cf2 q2 h
      simp only [Sum.inl.injEq, Prod.mk.injEq] at h
      obtain ⟨rfl, rfl⟩ := h
      refine MidInv_drop hinv ?_
      intro z hstep hzeq
      subst hzeq
      exact absurd hstep.2.1 hb
    · intro p h
      simp at h
  case pos =>
  have hnbinb : inb city (c.1 + d.1, c.2 + d.2) := hb
  by_cases hvis : (mapGet cf (keyOf city.cols (c.1 + d.1) (c.2 + d.2))).isSome = true
  case pos =>
    rw [processNeighbor_visited hb hvis]
    constructor
    · intro cf2 q2 h
      simp only [Sum.inl.injEq, Prod.mk.injEq] at h
      obtain ⟨rfl, rfl⟩ := h
      refine MidInv_drop hinv ?_
      intro z hstep hzeq
      subst hzeq
      exact ⟨mapGet_isSome_iff.mp hvis, hvb _ (mapGet_isSome_iff.mp hvis)⟩
    · intro p h
      simp at h
  case neg =>
  have hfreshK : keyOf city.cols (c.1 + d.1) (c.2 + d.2) ∉ cfKeys cf := by
    rw [← mapGet_isSome_iff]
    exact hvis
  by_cases htgt : c.1 + d.1 = e.1 ∧ c.2 + d.2 = e.2
  case pos =>
    -- the neighbor is the exact destination: early return
    rw [processNeighbor_found hb hvis htgt]
    have hnbe : ((c.1 + d.1 : Int), (c.2 + d.2 : Int)) = e := Prod.ext htgt.1 htgt.2
    constructor
    · intro cf2 q2 h
      simp at h
    · intro p h
      simp only [Sum.inr.injEq] at h
      subst h
      obtain ⟨kvc, hkvc, hkvceq⟩ := mem_cfKeys.mp hinv.cmem
      obtain ⟨c', pc, hc'inb, hkey, hf, hhd, hlast, hch, htl⟩ :=
        hkvceq ▸ hinv.cfi.recon kvc hkvc
      rw [show c' = c from keyOf_inj hc'inb hinv.cinb hkey.symm] at hlast
      have hpcne : pc ≠ [] := by intro hx; rw [hx] at hhd; simp at hhd
      have hget : mapGet ((keyOf city.cols (c.1 + d.1) (c.2 + d.2),
          some (keyOf city.cols c.1 c.2)) :: cf)
          (keyOf city.cols (c.1 + d.1) (c.2 + d.2)) =
          some (some (keyOf city.cols c.1 c.2)) := by
        simp [mapGet]
      have hpeq : reconstructPath city.cols
          ((keyOf city.cols (c.1 + d.1) (c.2 + d.2), some (keyOf city.cols c.1 c.2)) :: cf)
          (cf.length + 1) (keyOf city.cols (c.1 + d.1) (c.2 + d.2)) = pc ++ [e] := by
        simp only [reconstructPath, hget]
        rw [reconstructPath_stable hinv.cfi.parents hfreshK cf.length _ hinv.cmem,
          hf cf.length le_rfl]
        have hdec := keyOf_decode (hnbe ▸ hnbinb : inb city e)
        rw [show (keyOf city.cols (c.1 + d.1) (c.2 + d.2)) = keyOf city.cols e.1 e.2 by
            rw [htgt.1, htgt.2], hdec]
      rw [hpeq]
      have hpcl : pc.length = rc + 1 := by
        have h1 : rdk city cf (keyOf city.cols c.1 c.2) = pc.length - 1 := by
          unfold rdk; rw [hf _ le_rfl]
        have h2 := hinv.crd
        unfold rdc at h2
        rw [h1] at h2
        have : 1 ≤ pc.length := List.length_pos.mpr hpcne
        omega
      refine ⟨by simp [hpcl], ⟨?_, List.getLast?_concat pc, ?_⟩, pc.tail, ?_, ?_⟩
      · cases pc with
        | nil => exact absurd rfl hpcne
        | cons a t => simpa using hhd
      · refine chain_append_singleton hch hlast ⟨hnbe ▸ adjacent_of_dir hd, he, Or.inr rfl⟩
      · cases pc with
        | nil => exact absurd rfl hpcne
        | cons a t =>
          simp only [List.head?_cons, Option.some.injEq] at hhd
          subst hhd
          simp
      · intro x hx
        exact htl x hx
  case neg =>
  -- the neighbor is walkable road (or the tile check fails)
  by_cases hroad : city.grid (c.2 + d.2) (c.1 + d.1) = TILE.ROAD
  case neg =>
    rw [processNeighbor_blocked hb hvis hroad htgt]
    constructor
    · intro cf2 q2 h
      simp only [Sum.inl.injEq, Prod.mk.injEq] at h
      obtain ⟨rfl, rfl⟩ := h
      refine MidInv_drop hinv ?_
      intro z hstep hzeq
      subst hzeq
      rcases hstep.2.2 with hz | hz
      · exact absurd hz hroad
      · exact absurd ⟨congrArg Prod.fst hz, congrArg Prod.snd hz⟩ htgt
    · intro p h
      simp at h
  case pos =>
  rw [processNeighbor_push hb hvis hroad htgt]
  constructor
  swap
  · intro p h
    simp at h
  intro cf2 q2 h
  simp only [Sum.inl.injEq, Prod.mk.injEq] at h
  obtain ⟨rfl, rfl⟩ := h
  -- fresh road neighbor: insert and push
  have hnbne : ((c.1 + d.1 : Int), (c.2 + d.2 : Int)) ≠ e := by
    intro hx
    exact htgt ⟨congrArg Prod.fst hx, congrArg Prod.snd hx⟩
  have hadj : adjacent c (c.1 + d.1, c.2 + d.2) := adjacent_of_dir hd
  have hcfi' := CfInv_insert hinv.cfi hinv.cinb hinv.cmem hfreshK hnbinb hnbne he hadj hroad
  have hstab : ∀ k ∈ cfKeys cf,
      rdk city ((keyOf city.cols (c.1 + d.1) (c.2 + d.2), some (keyOf city.cols c.1 c.2)) :: cf) k
        = rdk city cf k :=
    fun k hk => rdk_stable_of_cfi hinv.cfi hfreshK hk
  obtain ⟨kvc, hkvc, hkvceq⟩ := mem_cfKeys.mp hinv.cmem
  have hrdnb : rdk city
      ((keyOf city.cols (c.1 + d.1) (c.2 + d.2), some (keyOf city.cols c.1 c.2)) :: cf)
      (keyOf city.cols (c.1 + d.1) (c.2 + d.2)) = rc + 1 := by
    rw [(ReconOf_new (hkvceq ▸ hinv.cfi.recon kvc hkvc) hinv.cfi.parents hinv.cinb hfreshK
      hinv.cmem hnbinb hadj hroad).2]
    have h2 := hinv.crd
    unfold rdc at h2
    rw [h2]
  have hnbq : ((c.1 + d.1 : Int), (c.2 + d.2 : Int)) ∉ q := by
    intro hx
    exact hfreshK (hinv.qmem _ hx).2
  have hknbcons : cfKeys ((keyOf city.cols (c.1 + d.1) (c.2 + d.2),
      some (keyOf city.cols c.1 c.2)) :: cf) =
      keyOf city.cols (c.1 + d.1) (c.2 + d.2) :: cfKeys cf := rfl
  have hqstab : ∀ a ∈ q,
      rdc city ((keyOf city.cols (c.1 + d.1) (c.2 + d.2), some (keyOf city.cols c.1 c.2)) :: cf) a
        = rdc city cf a := by
    intro a ha
    exact hstab _ (hinv.qmem a ha).2
  have hcne : c ≠ ((c.1 + d.1 : Int), (c.2 + d.2 : Int)) := by
    intro hx
    have h1 : c.1 = c.1 + d.1 := congrArg Prod.fst hx
    have h2 : c.2 = c.2 + d.2 := congrArg Prod.snd hx
    rw [← h1, ← h2] at hfreshK
    exact hfreshK hinv.cmem
  refine ⟨hcfi', ?_, ?_, ?_, ?_, ?_, hinv.cinb, ?_, ?_, ?_, ?_, ?_, ?_, ?_⟩
  · -- qmem
    intro a ha
    rcases List.mem_append.mp ha with ha | ha
    · exact ⟨(hinv.qmem a ha).1, by rw [hknbcons]; exact List.mem_cons_of_mem _ (hinv.qmem a ha).2⟩
    · rw [List.mem_singleton] at ha
      subst ha
      exact ⟨hnbinb, by rw [hknbcons]; exact List.mem_cons_self _ _⟩
  · -- qnodup
    rw [List.nodup_append]
    exact ⟨hinv.qnodup, List.nodup_singleton _, by
      intro a ha hb2
      rw [List.mem_singleton] at hb2
      subst hb2
      exact hnbq ha⟩
  · -- qsorted
    rw [List.chain'_append]
    refine ⟨chain_le_congr (fun a ha => (hqstab a ha).symm) hinv.qsorted,
      List.chain'_singleton _, ?_⟩
    intro x hx y hy
    have hxq : x ∈ q := List.mem_of_mem_getLast? hx
    simp only [List.head?_cons, Option.mem_def, Option.some.injEq] at hy
    subst hy
    rw [hqstab x hxq]
    unfold rdc
    rw [hrdnb]
    exact le_trans (hvb _ (hinv.qmem x hxq).2) le_rfl
  · -- qpair
    intro a ha b hb2
    have hrdnbc : rdc city
        ((keyOf city.cols (c.1 + d.1) (c.2 + d.2), some (keyOf city.cols c.1 c.2)) :: cf)
        (c.1 + d.1, c.2 + d.2) = rc + 1 := hrdnb
    rcases List.mem_append.mp ha with ha | ha <;>
      rcases List.mem_append.mp hb2 with hb3 | hb3
    · rw [hqstab a ha, hqstab b hb3]
      exact hinv.qpair a ha b hb3
    · rw [List.mem_singleton] at hb3
      subst hb3
      rw [hqstab a ha, hrdnbc]
      have h3 : rdc city cf a = rdk city cf (keyOf city.cols a.1 a.2) := rfl
      rw [h3]
      have h4 : rc ≤ rdk city cf (keyOf city.cols a.1 a.2) := hinv.qabove a ha
      omega
    · rw [List.mem_singleton] at ha
      subst ha
      rw [hqstab b hb3, hrdnbc]
      have h3 : rdc city cf b = rdk city cf (keyOf city.cols b.1 b.2) := rfl
      rw [h3]
      have h4 := hvb _ (hinv.qmem b hb3).2
      omega
    · rw [List.mem_singleton] at ha hb3
      subst ha; subst hb3
      omega
  · -- cmem
    rw [hknbcons]
    exact List.mem_cons_of_mem _ hinv.cmem
  · -- cnotq
    intro hx
    rcases List.mem_append.mp hx with hx | hx
    · exact hinv.cnotq hx
    · rw [List.mem_singleton] at hx
      exact hcne hx
  · -- crd
    unfold rdc
    rw [hstab _ hinv.cmem]
    exact hinv.crd
  · -- vboundc
    intro kv hkv
    rcases List.mem_cons.mp hkv with rfl | hkv
    · rw [hrdnb]
    · rw [hstab _ (mem_cfKeys.mpr ⟨kv, hkv, rfl⟩)]
      exact hinv.vboundc kv hkv
  · -- qabove
    intro a ha
    rcases List.mem_append.mp ha with ha | ha
    · rw [hqstab a ha]
      exact hinv.qabove a ha
    · rw [List.mem_singleton] at ha
      subst ha
      unfold rdc
      rw [hrdnb]
      omega
  · -- closureO
    intro kv hkv v hkveq hvinb hvq hvc z hstep
    rcases List.mem_cons.mp hkv with rfl | hkv
    · exfalso
      have : v = ((c.1 + d.1 : Int), (c.2 + d.2 : Int)) := keyOf_inj hvinb hnbinb hkveq.symm
      subst this
      exact hvq (List.mem_append.mpr (Or.inr (List.mem_singleton.mpr rfl)))
    · have hvq2 : v ∉ q := fun hx => hvq (List.mem_append.mpr (Or.inl hx))
      obtain ⟨hz1, hz2⟩ := hinv.closureO kv hkv v hkveq hvinb hvq2 hvc z hstep
      refine ⟨by rw [hknbcons]; exact List.mem_cons_of_mem _ hz1, ?_⟩
      rw [hstab _ hz1, hstab _ (mem_cfKeys.mpr ⟨kv, hkv, rfl⟩)]
      exact hz2
  · -- closureC
    intro z hstep hnot
    by_cases hzd : z = ((c.1 + d.1 : Int), (c.2 + d.2 : Int))
    · subst hzd
      refine ⟨by rw [hknbcons]; exact List.mem_cons_self _ _, ?_⟩
      rw [hrdnb]
    · have hnot2 : ∀ d' ∈ d :: ds, z ≠ (c.1 + d'.1, c.2 + d'.2) := by
        intro d' hd'
        rcases List.mem_cons.mp hd' with rfl | hd'
        · exact hzd
        · exact hnot d' hd'
      obtain ⟨hz1, hz2⟩ := hinv.closureC z hstep hnot2
      refine ⟨by rw [hknbcons]; exact List.mem_cons_of_mem _ hz1, ?_⟩
      rw [hstab _ hz1]
      exact hz2
  · -- mcount
    have hle := cf_length_le hcfi'.nodup hcfi'.recon
    simp only [List.length_cons, List.length_append] at hle ⊢
    have hm := hinv.mcount
    simp only [List.length_cons, List.length_nil]
    omega

/-- The full neighbor expansion of a dequeued cell preserves the invariant
(with the offset list exhausted), or returns a `ReturnSpec` path. -/
theorem expandDirs_spec {city : City} {s e c : Cell} {rc m0 : Nat} (he : inb city e) :
    ∀ (ds : List (Int × Int)) (cf : List (Int × Option Int)) (q : List Cell),
      (∀ d ∈ ds, d ∈ dirs) → MidInv city s e c rc m0 ds cf q →
      (∀ cf2 q2, expandDirs city e.1 e.2 c.1 c.2 ds cf q = Sum.inl (cf2, q2) →
        MidInv city s e c rc m0 [] cf2 q2) ∧
      (∀ p, expandDirs city e.1 e.2 c.1 c.2 ds cf q = Sum.inr p →
        ReturnSpec city s e rc p)
  | [], cf, q => by
    intro _ hinv
    constructor
    · intro cf2 q2 h
      simp only [expandDirs, Sum.inl.injEq, Prod.mk.injEq] at h
      obtain ⟨rfl, rfl⟩ := h
      exact hinv
    · intro p h
      simp [expandDirs] at h
  | d :: rest, cf, q => by
    intro hds hinv
    have hstep := processNeighbor_step (hds d (List.mem_cons_self _ _)) he hinv
    cases hpn : processNeighbor city e.1 e.2 c.1 c.2 d.1 d.2 cf q with
    | inl st =>
      have hmid := hstep.1 st.1 st.2 (by rw [hpn])
      have hrec := expandDirs_spec he rest st.1 st.2
        (fun d' hd' => hds d' (List.mem_cons_of_mem _ hd')) hmid
      constructor
      · intro cf2 q2 h
        rw [show expandDirs city e.1 e.2 c.1 c.2 (d :: rest) cf q
            = expandDirs city e.1 e.2 c.1 c.2 rest st.1 st.2 by
          simp only [expandDirs, hpn]] at h
        exact hrec.1 cf2 q2 h
      · intro p h
        rw [show expandDirs city e.1 e.2 c.1 c.2 (d :: rest) cf q
            = expandDirs city e.1 e.2 c.1 c.2 rest st.1 st.2 by
          simp only [expandDirs, hpn]] at h
        exact hrec.2 p h
    | inr p0 =>
      have hret := hstep.2 p0 (by rw [hpn])
      constructor
      · intro cf2 q2 h
        rw [show expandDirs city e.1 e.2 c.1 c.2 (d :: rest) cf q = Sum.inr p0 by
          simp only [expandDirs, hpn]] at h
        simp at h
      · intro p h
        rw [show expandDirs city e.1 e.2 c.1 c.2 (d :: rest) cf q = Sum.inr p0 by
          simp only [expandDirs, hpn]] at h
        simp only [Sum.inr.injEq] at h
        subst h
        exact hret

/-- Dequeuing the head of the queue establishes the mid-expansion invariant. -/
theorem MidInv_of_BfsInv {city : City} {s e c : Cell} {cf : List (Int × Option Int)}
    {qrest : List Cell} (hinv : BfsInv city s e cf (c :: qrest)) :
    MidInv city s e c (rdc city cf c)
      (qrest.length + (city.cols.toNat * city.rows.toNat - cf.length)) dirs cf qrest := by
  have hcq := hinv.qmem c (List.mem_cons_self _ _)
  refine ⟨hinv.cfi, ?_, ?_, ?_, ?_, hcq.2, hcq.1, ?_, rfl, ?_, ?_, ?_, ?_, rfl⟩
  · exact fun a ha => hinv.qmem a (List.mem_cons_of_mem _ ha)
  · exact (List.nodup_cons.mp hinv.qnodup).2
  · exact hinv.qsorted.tail
  · exact fun a ha b hb =>
      hinv.qpair a (List.mem_cons_of_mem _ ha) b (List.mem_cons_of_mem _ hb)
  · exact (List.nodup_cons.mp hinv.qnodup).1
  · exact fun kv hkv => hinv.vbound kv hkv c rfl
  · exact fun a ha =>
      chain_head_le hinv.qsorted rfl a (List.mem_cons_of_mem _ ha)
  · intro kv hkv v hkveq hvinb hvq hvc z hstep
    exact hinv.closure kv hkv v hkveq hvinb
      (by
        intro hx
        rcases List.mem_cons.mp hx with rfl | hx
        · exact hvc rfl
        · exact hvq hx) z hstep
  · intro z hstep hnot
    exfalso
    obtain ⟨dz, hdz, hzeq⟩ := hstep.1
    exact hnot dz hdz hzeq

/-- After the expansion finishes, the loop invariant holds again. -/
theorem BfsInv_of_MidInv {city : City} {s e c : Cell} {rc m0 : Nat}
    {cf : List (Int × Option Int)} {q : List Cell}
    (hinv : MidInv city s e c rc m0 [] cf q) : BfsInv city s e cf q := by
  refine ⟨hinv.cfi, hinv.qmem, hinv.qnodup, hinv.qsorted, hinv.qpair, ?_, ?_⟩
  · intro kv hkv h hh
    have h1 := hinv.vboundc kv hkv
    have h2 := hinv.qabove h (by
      cases q with
      | nil => simp at hh
      | cons a t =>
        simp only [List.head?_cons, Option.some.injEq] at hh
        subst hh
        exact List.mem_cons_self _ _)
    omega
  · intro kv hkv v hkveq hvinb hvq z hstep
    by_cases hvc : v = c
    · subst hvc
      have h1 := hinv.closureC z hstep (by intro d hd; simp at hd)
      have h2 : rdk city cf kv.1 = rc := by
        rw [hkveq]
        exact hinv.crd
      rw [h2]
      exact h1
    · exact hinv.closureO kv hkv v hkveq hvinb hvq hvc z hstep

/-! ### Reachability against the invariant -/

theorem hops_zero {city : City} {e a z : Cell} (h : Hops city e a z 0) : z = a := by
  cases h
  rfl

theorem hops_snoc {city : City} {e : Cell} :
    ∀ {n : Nat} {a z : Cell}, Hops city e a z (n + 1) →
      ∃ y, Hops city e a y n ∧ stepRel city e y z := by
  intro n
  induction n with
  | zero =>
    intro a z h
    cases h with
    | step hr hrest =>
      rw [← hops_zero hrest] at hr
      exact ⟨a, Hops.refl a, hr⟩
  | succ m ih =>
    intro a z h
    cases h with
    | step hr hrest =>
      obtain ⟨y, hby, hyz⟩ := ih hrest
      exact ⟨y, Hops.step hr hby, hyz⟩

theorem hops_inb {city : City} {e s z : Cell} {n : Nat}
    (h : Hops city e s z n) : z = s ∨ inb city z := by
  cases n with
  | zero => exact Or.inl (hops_zero h)
  | succ m =>
    obtain ⟨y, _, hyz⟩ := hops_snoc h
    exact Or.inr hyz.2.1

/-- Every cell within `n` hops of the start is already visited with
recorded distance at most `n`, provided `n` does not exceed the distance
of the queue head (vacuously, if the queue is empty). -/
theorem bfs_reach {city : City} {s e : Cell} {cf : List (Int × Option Int)}
    {q : List Cell} (hs : inb city s) (hinv : BfsInv city s e cf q) :
    ∀ (n : Nat) (z : Cell), Hops city e s z n →
      (∀ h, q.head? = some h → n ≤ rdc city cf h) →
      keyOf city.cols z.1 z.2 ∈ cfKeys cf ∧ rdk city cf (keyOf city.cols z.1 z.2) ≤ n := by
  intro n
  induction n with
  | zero =>
    intro z hz _
    rw [hops_zero hz]
    exact ⟨mem_cfKeys.mpr ⟨_, hinv.cfi.root, rfl⟩,
      le_of_eq (rdk_root hinv.cfi.nodup hinv.cfi.root hs)⟩
  | succ n ih =>
    intro z hz hfront
    obtain ⟨y, hsy, hyz⟩ := hops_snoc hz
    obtain ⟨hymem, hyrd⟩ := ih y hsy (fun h hh => le_trans (Nat.le_succ n) (hfront h hh))
    have hyinb : inb city y := by
      rcases hops_inb hsy with rfl | h
      · exact hs
      · exact h
    have hynotq : y ∉ q := by
      intro hyq
      cases q with
      | nil => simp at hyq
      | cons h t =>
        have h1 := hfront h rfl
        have h2 := chain_head_le hinv.qsorted rfl y hyq
        have h3 : rdc city cf y = rdk city cf (keyOf city.cols y.1 y.2) := rfl
        rw [h3] at h2
        have h4 : rdc city cf h ≤ n := le_trans h2 hyrd
        omega
    obtain ⟨kv, hkv, hkveq⟩ := mem_cfKeys.mp hymem
    obtain ⟨hzmem, hzrd⟩ := hinv.closure kv hkv y hkveq hyinb hynotq z hyz
    rw [hkveq] at hzrd
    exact ⟨hzmem, by omega⟩

/-- Full correctness of the BFS loop, given the invariant and enough fuel. -/
theorem bfsLoop_spec {city : City} {s e : Cell} (hs : inb city s) (he : inb city e) :
    ∀ (fuel : Nat) (cf : List (Int × Option Int)) (q : List Cell),
      BfsInv city s e cf q →
      q.length + (city.cols.toNat * city.rows.toNat - cf.length) < fuel →
      (∀ p, bfsLoop city e.1 e.2 fuel cf q = some p →
        ValidSeq city s e p ∧ (∀ n, Hops city e s e n → p.length ≤ n + 1) ∧
        ∃ mid, p = s :: (mid ++ [e]) ∧
          ∀ x ∈ mid, inb city x ∧ city.grid x.2 x.1 = TILE.ROAD) ∧
      (bfsLoop city e.1 e.2 fuel cf q = none → ∀ n, ¬ Hops city e s e n) := by
  intro fuel
  induction fuel with
  | zero =>
    intro cf q _ hm
    omega
  | succ fuel ih =>
    intro cf q hinv hm
    cases q with
    | nil =>
      constructor
      · intro p hp
        simp [bfsLoop] at hp
      · intro _ n hn
        have hr := bfs_reach hs hinv n e hn (by simp)
        exact absurd hr.1 hinv.cfi.target
    | cons c qrest =>
      obtain ⟨cx, cy⟩ := c
      have hmid := MidInv_of_BfsInv hinv
      have hspec := expandDirs_spec he dirs cf qrest (fun d hd => hd) hmid
      cases hexp : expandDirs city e.1 e.2 cx cy dirs cf qrest with
      | inl st =>
        have hmid2 := hspec.1 st.1 st.2 (by rw [hexp])
        have hinv2 := BfsInv_of_MidInv hmid2
        have hloopeq : bfsLoop city e.1 e.2 (fuel+1) cf ((cx, cy) :: qrest)
            = bfsLoop city e.1 e.2 fuel st.1 st.2 := by
          simp only [bfsLoop, hexp]
        have hm2 : st.2.length + (city.cols.toNat * city.rows.toNat - st.1.length) < fuel := by
          have hc2 := hmid2.mcount
          simp only [List.length_cons] at hm
          omega
        rw [hloopeq]
        exact ih st.1 st.2 hinv2 hm2
      | inr p0 =>
        have hret := hspec.2 p0 (by rw [hexp])
        have hloopeq : bfsLoop city e.1 e.2 (fuel+1) cf ((cx, cy) :: qrest) = some p0 := by
          simp only [bfsLoop, hexp]
        rw [hloopeq]
        constructor
        · intro p hp
          obtain rfl : p0 = p := by simpa using hp
          obtain ⟨hlen, hvalid, mid, hmid3, hmidroad⟩ := hret
          refine ⟨hvalid, ?_, mid, hmid3, hmidroad⟩
          intro n hn
          by_cases hle : n ≤ rdc city cf (cx, cy)
          · exfalso
            have hr := bfs_reach hs hinv n e hn (by
              intro h hh
              simp only [List.head?_cons, Option.some.injEq] at hh
              subst hh
              exact hle)
            exact absurd hr.1 hinv.cfi.target
          · omega
        · intro hnone
          simp at hnone

/-! ### Converting the claim's sequences to hop counts -/

theorem chain_hops {city : City} {e : Cell} :
    ∀ (l : List Cell) (a : Cell), List.Chain' (stepRel city e) (a :: l) →
      ∀ z, (a :: l).getLast? = some z → Hops city e a z l.length := by
  intro l
  induction l with
  | nil =>
    intro a _ z hz
    simp only [List.getLast?_singleton, Option.some.injEq] at hz
    subst hz
    exact Hops.refl _
  | cons b t ih =>
    intro a hch z hz
    rw [List.chain'_cons] at hch
    have hz2 : (b :: t).getLast? = some z := by
      rw [← hz]
      exact List.getLast?_cons_cons.symm
    exact Hops.step hch.1 (ih b hch.2 z hz2)

theorem validSeq_hops {city : City} {s e : Cell} {p : List Cell}
    (h : ValidSeq city s e p) : Hops city e s e (p.length - 1) := by
  obtain ⟨hh, hl, hc⟩ := h
  cases p with
  | nil => simp at hh
  | cons a t =>
    simp only [List.head?_cons, Option.some.injEq] at hh
    subst hh
    simpa using chain_hops t a hc e hl

/-- Master correctness theorem for `findPath`: a returned sequence is a
valid shortest route (with in-bounds road interior), and `null` means no
valid route exists. -/
theorem findPath_main {city : City} {s e : Cell} (hs : inb city s) (he : inb city e) :
    (∀ p, findPath city s.1 s.2 e.1 e.2 = some p →
      ValidSeq city s e p ∧ (∀ q, ValidSeq city s e q → p.length ≤ q.length) ∧
      (s ≠ e → ∃ mid, p = s :: (mid ++ [e]) ∧
        ∀ x ∈ mid, inb city x ∧ city.grid x.2 x.1 = TILE.ROAD)) ∧
    (findPath city s.1 s.2 e.1 e.2 = none → ∀ q, ¬ ValidSeq city s e q) := by
  by_cases hse : s.1 = e.1 ∧ s.2 = e.2
  · have hseq : s = e := Prod.ext hse.1 hse.2
    subst hseq
    have hfp : findPath city s.1 s.2 s.1 s.2 = some [s] := by
      simp [findPath]
    constructor
    · intro p hp
      rw [hfp] at hp
      obtain rfl : [s] = p := by simpa using hp
      refine ⟨⟨rfl, rfl, List.chain'_singleton _⟩, ?_, fun hne => absurd rfl hne⟩
      intro q hq
      have hq0 : q ≠ [] := by
        intro h
        rw [h] at hq
        simp [ValidSeq] at hq
      simpa using List.length_pos.mpr hq0
    · intro hnone
      rw [hfp] at hnone
      simp at hnone
  · have hsne : s ≠ e := fun h => hse ⟨congrArg Prod.fst h, congrArg Prod.snd h⟩
    have hcols := cols_pos hs
    have hrows := rows_pos hs
    have hN : 1 ≤ city.cols.toNat * city.rows.toNat := by
      have h1 : 0 < city.cols.toNat := by omega
      have h2 : 0 < city.rows.toNat := by omega
      exact Nat.mul_pos h1 h2
    have hnd0 : (cfKeys [(keyOf city.cols s.1 s.2, none)]).Nodup := by
      simp [cfKeys]
    have hroot0 : ((keyOf city.cols s.1 s.2, none) : Int × Option Int)
        ∈ [(keyOf city.cols s.1 s.2, none)] := List.mem_singleton.mpr rfl
    have hinv0 : BfsInv city s e [(keyOf city.cols s.1 s.2, none)] [s] := by
      refine ⟨⟨hnd0, ?_, hroot0, ?_, ?_⟩, ?_, List.nodup_singleton _,
        List.chain'_singleton _, ?_, ?_, ?_⟩
      · intro kv hkv pk hpk
        rw [List.mem_singleton] at hkv
        subst hkv
        simp at hpk
      · intro hmem
        have : keyOf city.cols e.1 e.2 = keyOf city.cols s.1 s.2 := by
          simpa [cfKeys] using hmem
        exact hsne (keyOf_inj hs he this.symm)
      · intro kv hkv
        rw [List.mem_singleton] at hkv
        subst hkv
        exact ReconOf_root hnd0 hroot0 hs
      · intro a ha
        rw [List.mem_singleton] at ha
        subst ha
        exact ⟨hs, by simp [cfKeys]⟩
      · intro a ha b hb
        rw [List.mem_singleton] at ha hb
        subst ha; subst hb
        omega
      · intro kv hkv h hh
        rw [List.mem_singleton] at hkv
        subst hkv
        rw [rdk_root hnd0 hroot0 hs]
        exact Nat.zero_le _
      · intro kv hkv v hkveq hvinb hvq z hstep
        exfalso
        rw [List.mem_singleton] at hkv
        subst hkv
        have : v = s := (keyOf_inj hs hvinb hkveq).symm
        subst this
        exact hvq (List.mem_singleton.mpr rfl)
    have hfp : findPath city s.1 s.2 e.1 e.2 =
        bfsLoop city e.1 e.2 (city.cols.toNat * city.rows.toNat + 1)
          [(keyOf city.cols s.1 s.2, none)] [s] := by
      simp [findPath, hse]
    have hmeasure : ([s] : List Cell).length +
        (city.cols.toNat * city.rows.toNat - ([(keyOf city.cols s.1 s.2, none)] :
          List (Int × Option Int)).length) < city.cols.toNat * city.rows.toNat + 1 := by
      simp only [List.length_singleton]
      omega
    have hspec := bfsLoop_spec hs he (city.cols.toNat * city.rows.toNat + 1) _ _ hinv0 hmeasure
    constructor
    · intro p hp
      rw [hfp] at hp
      obtain ⟨hvalid, hmin, mid, hm3, hm4⟩ := hspec.1 p hp
      refine ⟨hvalid, ?_, fun _ => ⟨mid, hm3, hm4⟩⟩
      intro q hq
      have hq0 : q ≠ [] := by
        intro h
        rw [h] at hq
        simp [ValidSeq] at hq
      have hq1 : 1 ≤ q.length := List.length_pos.mpr hq0
      have := hmin (q.length - 1) (validSeq_hops hq)
      omega
    · intro hnone q hq
      rw [hfp] at hnone
      exact hspec.2 hnone _ (validSeq_hops hq)

/-! ### Claim C1 -/

/-- A small concrete city used by the witnesses: a 3-wide, 2-tall grid
whose bottom row (y = 1) is road and whose top row is empty. -/
def cityW : City :=
  { cols := 3, rows := 2,
    grid := fun y _ => if y = 1 then TILE.ROAD else TILE.EMPTY,
    names := fun _ _ => none }

/-- C1: for every city grid and cells start/end, if `findPath` returns a
sequence then it begins at start, ends at end, consecutive cells are
4-connected, every cell other than the first is walkable-road except that
the exact target cell is accepted regardless (the `ValidSeq` predicate),
and no sequence with these properties has fewer hops (equivalently, is
shorter); if `findPath` returns `null`, no such sequence exists. -/
theorem findPath_correct (city : City) (s e : Cell) (hs : inb city s) (he : inb city e) :
    (∀ p, findPath city s.1 s.2 e.1 e.2 = some p →
      ValidSeq city s e p ∧ ∀ q, ValidSeq city s e q → p.length ≤ q.length) ∧
    (findPath city s.1 s.2 e.1 e.2 = none → ∀ q, ¬ ValidSeq city s e q) := by
  have h := findPath_main hs he
  exact ⟨fun p hp => ⟨(h.1 p hp).1, (h.1 p hp).2.1⟩, h.2⟩

/-- Witness for C1 at a concrete city and endpoints. -/
theorem findPath_correct_witness :
    inb cityW (0, 0) ∧ inb cityW (2, 0) ∧
      ValidSeq cityW (0, 0) (2, 0) [(0, 0), (0, 1), (1, 1), (2, 1), (2, 0)] ∧
      ∀ q, ValidSeq cityW (0, 0) (2, 0) q →
        ([(0, 0), (0, 1), (1, 1), (2, 1), (2, 0)] : List Cell).length ≤ q.length := by
  have h := (findPath_correct cityW (0, 0) (2, 0) (by decide) (by decide)).1
    [(0, 0), (0, 1), (1, 1), (2, 1), (2, 0)] (by decide)
  exact ⟨by decide, by decide, h.1, h.2⟩

/-! ### Claim C8: determinism and symmetric route length -/

theorem adjacent_symm {a b : Cell} (h : adjacent a b) : adjacent b a := by
  obtain ⟨d, hd, rfl⟩ := h
  simp only [dirs, List.mem_cons, List.not_mem_nil, or_false] at hd
  rcases hd with rfl | rfl | rfl | rfl
  · exact ⟨(0, 1), by simp [dirs], by rw [Prod.ext_iff]; constructor <;> simp⟩
  · exact ⟨(0, -1), by simp [dirs], by rw [Prod.ext_iff]; constructor <;> simp⟩
  · exact ⟨(1, 0), by simp [dirs], by rw [Prod.ext_iff]; constructor <;> simp⟩
  · exact ⟨(-1, 0), by simp [dirs], by rw [Prod.ext_iff]; constructor <;> simp⟩

theorem chain_of_adjacent_ok {city : City} {t : Cell} :
    ∀ (l : List Cell), List.Chain' adjacent l → (∀ x ∈ l.tail, stepOK city t x) →
      List.Chain' (stepRel city t) l := by
  intro l
  induction l with
  | nil => intro _ _; exact List.chain'_nil
  | cons a rest ih =>
    intro hadj hok
    cases rest with
    | nil => exact List.chain'_singleton _
    | cons b t2 =>
      rw [List.chain'_cons] at hadj ⊢
      refine ⟨⟨hadj.1, hok b (by simp)⟩, ?_⟩
      exact ih hadj.2 (fun x hx => hok x (by simp [List.mem_cons]; right; exact hx))

/-- Reversing a route from `s` to `e` whose interior is road yields a route
from `e` to `s`. -/
theorem validSeq_reverse {city : City} {s e : Cell} {mid : List Cell}
    (hs : inb city s) (hchain : List.Chain' (stepRel city e) (s :: (mid ++ [e])))
    (hroad : ∀ x ∈ mid, inb city x ∧ city.grid x.2 x.1 = TILE.ROAD) :
    ValidSeq city e s (s :: (mid ++ [e])).reverse := by
  have hrevform : (s :: (mid ++ [e])).reverse = e :: (mid.reverse ++ [s]) := by
    simp
  rw [hrevform]
  have hadj : List.Chain' adjacent (s :: (mid ++ [e])) :=
    List.Chain'.imp (fun a b h => h.1) hchain
  have hadjrev : List.Chain' adjacent ((s :: (mid ++ [e])).reverse) := by
    rw [List.chain'_reverse]
    exact List.Chain'.imp (fun a b h => adjacent_symm h) hadj
  rw [hrevform] at hadjrev
  have hlast : (e :: (mid.reverse ++ [s])).getLast? = some s := by
    rw [show (e :: (mid.reverse ++ [s])) = (e :: mid.reverse) ++ [s] by simp]
    exact List.getLast?_concat _
  refine ⟨rfl, hlast, ?_⟩
  refine chain_of_adjacent_ok _ hadjrev ?_
  intro x hx
  simp only [List.tail_cons, List.mem_append, List.mem_reverse,
    List.mem_singleton] at hx
  rcases hx with hx | rfl
  · exact ⟨(hroad x hx).1, Or.inl (hroad x hx).2⟩
  · exact ⟨hs, Or.inr rfl⟩

/-- C8: route results are deterministic (the embedded `findPath` is a pure
function of the city and the endpoints — the source draws no randomness),
and whenever routes exist in both directions between two cells of the
grid, their hop counts are equal. -/
theorem findPath_deterministic_symmetric (city : City) (a b : Cell)
    (ha : inb city a) (hb : inb city b) :
    (findPath city a.1 a.2 b.1 b.2 = findPath city a.1 a.2 b.1 b.2) ∧
    (∀ p q, findPath city a.1 a.2 b.1 b.2 = some p →
      findPath city b.1 b.2 a.1 a.2 = some q → p.length = q.length) := by
  refine ⟨rfl, ?_⟩
  intro p q hp hq
  by_cases hab : a = b
  · subst hab
    have h1 : findPath city a.1 a.2 a.1 a.2 = some [a] := by simp [findPath]
    rw [h1] at hp hq
    obtain rfl : [a] = p := by simpa using hp
    obtain rfl : [a] = q := by simpa using hq
    rfl
  · have hmainp := findPath_main ha hb
    have hmainq := findPath_main hb ha
    obtain ⟨hvp, hminp, hmidp⟩ := hmainp.1 p hp
    obtain ⟨hvq, hminq, hmidq⟩ := hmainq.1 q hq
    obtain ⟨midp, hpe, hproad⟩ := hmidp hab
    obtain ⟨midq, hqe, hqroad⟩ := hmidq (Ne.symm hab)
    have hrevp : ValidSeq city b a (a :: (midp ++ [b])).reverse :=
      validSeq_reverse ha (hpe ▸ hvp.2.2) hproad
    have hrevq : ValidSeq city a b (b :: (midq ++ [a])).reverse :=
      validSeq_reverse hb (hqe ▸ hvq.2.2) hqroad
    have h1 : q.length ≤ p.length := by
      have := hminq _ hrevp
      rw [List.length_reverse] at this
      rw [hpe]
      exact le_trans this (le_of_eq rfl)
    have h2 : p.length ≤ q.length := by
      have := hminp _ hrevq
      rw [List.length_reverse] at this
      rw [hqe]
      exact le_trans this (le_of_eq rfl)
    omega

/-- Witness for C8 at a concrete city and endpoints. -/
theorem findPath_deterministic_symmetric_witness :
    ((5 : Nat) = 5) ∧
      ∀ p q, findPath cityW 0 0 2 0 = some p → findPath cityW 2 0 0 0 = some q →
        p.length = q.length := by
  have h := findPath_deterministic_symmetric cityW (0, 0) (2, 0) (by decide) (by decide)
  exact ⟨rfl, fun p q hp hq => h.2 p q hp hq⟩

/-! Batteries marks the `Rat` arithmetic operations `@[irreducible]`,
which blocks kernel evaluation of concrete simulation runs; restore
reducibility locally so that `decide` can evaluate them. -/

attribute [local semireducible] Rat.add Rat.mul Rat.inv Rat.sub

/-! ### Numbers with `Infinity` / unset (src/js/agent.js schedule fields) -/

/-- JS schedule times that may be `Infinity` (`lunchStart` of a non-lunch
agent) or still `undefined` (`orderTime`, `_leisureDepartureTime`,
`_leisureEndTime` before they are assigned): the only operation the source
performs on such a value is `simHours >= t`, which is false for both. -/
inductive QInf
  | fin (q : ℚ)
  | inf
deriving DecidableEq

/-- `simHours >= t` (here: `t ≤ simHours`) for a possibly-infinite `t`. -/
def QInf.leNum : QInf → ℚ → Prop
  | .fin q, h => q ≤ h
  | .inf, _ => False

instance : ∀ (t : QInf) (h : ℚ), Decidable (QInf.leNum t h)
  | .fin q, h => inferInstanceAs (Decidable (q ≤ h))
  | .inf, _ => inferInstanceAs (Decidable False)

/-- `t - q` (`Infinity - q = Infinity`). -/
def QInf.subQ : QInf → ℚ → QInf
  | .fin a, b => .fin (a - b)
  | .inf, _ => .inf

/-- `t + q` (`Infinity + q = Infinity`). -/
def QInf.addQ : QInf → ℚ → QInf
  | .fin a, b => .fin (a + b)
  | .inf, _ => .inf

/-- `Math.max(0, t)`. -/
def QInf.max0 : QInf → QInf
  | .fin a => .fin (max 0 a)
  | .inf => .inf

/-- `Math.round` on exact rationals: round half toward positive infinity. -/
def jsRound (q : ℚ) : Int := Int.floor (q + 1/2)

/-! ### The Agent (src/js/agent.js) -/

/-- One entry of the activity log (`{ event, time, location? }`). -/
structure LogEntry where
  event : String
  time : ℚ
  location : Option String
deriving DecidableEq

/-- The fine-grained phase strings of `agent.js`. -/
inductive Phase
  | sleeping | waiting_for_work | commuting_to_work | at_work
  | commuting_to_lunch | at_lunch | returning_from_lunch
  | commuting_home_from_work | at_home_considering_leisure | commuting_to_leisure
  | at_leisure | commuting_home_from_leisure | at_home_evening | asleep_night
deriving DecidableEq

/-- The visible state strings of `agent.js`. -/
inductive AState
  | sleeping | home | traveling | working | leisure
deriving DecidableEq

/-- The `Agent` object.  `_hadLunch`, `_orderedDelivery`,
`_leisureDepartureTime`, `_leisureEndTime` are embedded without the
leading underscore. -/
structure Agent where
  id : Nat
  home : Cell
  workplace : Cell
  leisureSpot : Option Cell
  eatery : Option Cell
  city : City
  x : ℚ
  y : ℚ
  state : AState
  path : Option (List Cell)
  pathIndex : Nat
  moveProgress : ℚ
  speed : ℚ
  workStart : ℚ
  wakeUpTime : ℚ
  workDuration : ℚ
  workEnd : ℚ
  takesLunch : Bool
  lunchDuration : ℚ
  lunchStart : QInf
  lunchEnd : QInf
  hadLunch : Bool
  ordersDelivery : Bool
  orderedDeliveryDone : Bool
  orderTime : QInf
  wantsLeisure : Bool
  leisureDuration : ℚ
  bedTime : ℚ
  curfew : ℚ
  log : List LogEntry
  pathHistory : List (List Cell × Nat)
  phase : Phase
  leisureDepartureTime : QInf
  leisureEndTime : QInf

/-- The `Agent` constructor, with every `Math.random()` draw passed as an
explicit parameter (each in `[0, 1)` in the source), in source order. -/
def Agent.create (id : Nat) (home workplace : Cell) (leisureSpot eatery : Option Cell)
    (city : City) (rSpeed rWorkStart rWake rWorkDur rLunchA rLunchB rLunchDur rOrder
      rLeisure rLeisureDur rBed : ℚ) : Agent :=
  let speed := 5 + rSpeed * 3
  let workStart := 6 + rWorkStart * 3
  let wakeUpTime := workStart - (1/2 + rWake * (3/2))
  let workDuration := 7 + rWorkDur * 3
  let workEnd := workStart + workDuration
  let takesLunch := decide (rLunchA < 2/5 + rLunchB * (1/5)) && eatery.isSome
  let lunchDuration := 1/2 + rLunchDur * (1/2)
  let lunchStart := if takesLunch then
      QInf.fin ((jsRound ((workStart + workDuration / 2) * 2) : ℚ) / 2)
    else QInf.inf
  let lunchEnd := lunchStart.addQ lunchDuration
  let ordersDelivery := takesLunch &&
    (match eatery with
     | some ec => decide (20 < max (workplace.1 - ec.1).natAbs (workplace.2 - ec.2).natAbs)
     | none => false)
  let orderTime := if ordersDelivery then lunchStart.subQ ((25 + rOrder * 10) / 60)
    else QInf.inf
  { id := id, home := home, workplace := workplace, leisureSpot := leisureSpot,
    eatery := eatery, city := city,
    x := (home.1 : ℚ), y := (home.2 : ℚ), state := .sleeping,
    path := none, pathIndex := 0, moveProgress := 0, speed := speed,
    workStart := workStart, wakeUpTime := wakeUpTime, workDuration := workDuration,
    workEnd := workEnd, takesLunch := takesLunch, lunchDuration := lunchDuration,
    lunchStart := lunchStart, lunchEnd := lunchEnd, hadLunch := false,
    ordersDelivery := ordersDelivery, orderedDeliveryDone := false, orderTime := orderTime,
    wantsLeisure := decide (rLeisure < 2/5), leisureDuration := 1 + rLeisureDur * 2,
    bedTime := 20 + rBed * 4, curfew := 20 + rBed * 4 - 1,
    log := [], pathHistory := [], phase := .sleeping,
    leisureDepartureTime := .inf, leisureEndTime := .inf }

/-- `_logEvent(event, simHours, location)`: `if (location)` keeps only a
truthy (non-empty) location. -/
def Agent.logEvent (a : Agent) (event : String) (simHours : ℚ)
    (location : Option String) : Agent :=
  let loc := match location with
    | some l => if l = "" then none else some l
    | none => none
  { a with log := a.log ++ [⟨event, simHours, loc⟩] }

/-- `_nameAt(pos)`. -/
def Agent.nameAt (a : Agent) (pos : Option Cell) : Option String :=
  match pos with
  | none => none
  | some p => a.city.getNameAt p.1 p.2

/-! The movement sub-protocol shared by `Agent._moveAlongPath` and
`DeliveryDriver._moveAlongPath` (the two methods have identical bodies). -/

/-- The movement fields an agent or courier carries. -/
structure MoveState where
  path : Option (List Cell)
  pathIndex : Nat
  moveProgress : ℚ
  x : ℚ
  y : ℚ

/-- The tile-advancing loop
`while (moveProgress >= 1 && pathIndex < path.length - 1) {...}`; the fuel
(`path.length` at the call site) strictly exceeds the possible number of
iterations, so the embedding is exact. -/
def advanceTiles (pathLen : Nat) : Nat → Nat → ℚ → Nat × ℚ
  | 0, pi, mp => (pi, mp)
  | fuel+1, pi, mp =>
    if 1 ≤ mp ∧ pi < pathLen - 1 then advanceTiles pathLen fuel (pi + 1) (mp - 1)
    else (pi, mp)

/-- `_moveAlongPath(deltaSeconds)`: returns the new movement state and
whether the mover has arrived. -/
def moveCore (speed deltaSeconds : ℚ) (ms : MoveState) : MoveState × Bool :=
  match ms.path with
  | none => (ms, true)
  | some p =>
    if p.length ≤ 1 then (ms, true)
    else
      let mp0 := ms.moveProgress + speed * deltaSeconds
      let r := advanceTiles p.length p.length ms.pathIndex mp0
      if p.length - 1 ≤ r.1 then
        let endc := p.getLastD (0, 0)
        ({ path := none, pathIndex := r.1, moveProgress := r.2,
           x := (endc.1 : ℚ), y := (endc.2 : ℚ) }, true)
      else
        let curr := p.getD r.1 (0, 0)
        let next := p.getD (r.1 + 1) (0, 0)
        let t := min r.2 1
        ({ path := some p, pathIndex := r.1, moveProgress := r.2,
           x := (curr.1 : ℚ) + ((next.1 : ℚ) - (curr.1 : ℚ)) * t,
           y := (curr.2 : ℚ) + ((next.2 : ℚ) - (curr.2 : ℚ)) * t }, false)

def Agent.moveStep (a : Agent) (deltaSeconds : ℚ) : Agent × Bool :=
  let r := moveCore a.speed deltaSeconds ⟨a.path, a.pathIndex, a.moveProgress, a.x, a.y⟩
  let a2 := { a with
    path := r.1.path, pathIndex := r.1.pathIndex, moveProgress := r.1.moveProgress,
    x := r.1.x, y := r.1.y }
  (a2, r.2)

/-- `_navigateTo(target)`: route from the rounded current position, and
record the path for visualisation if it is non-trivial. -/
def Agent.navigateTo (a : Agent) (target : Cell) : Agent :=
  let sx := jsRound a.x
  let sy := jsRound a.y
  let p := findPath a.city sx sy target.1 target.2
  let a2 := { a with path := p, pathIndex := 0, moveProgress := 0 }
  match p with
  | some pp =>
    if 1 < pp.length then
      { a2 with pathHistory := a2.pathHistory ++ [(pp, a.city.getTile sx sy)] }
    else a2
  | none => a2

/-- `_decideLeisure(simHours)`; `rand` is the `Math.random()` draw for the
rest duration. -/
def Agent.decideLeisure (a : Agent) (simHours rand : ℚ) : Agent :=
  if a.wantsLeisure ∧ a.leisureSpot.isSome then
    if simHours + 1/2 + a.leisureDuration + 1/2 ≤ a.curfew then
      let dep := simHours + 3/10 + rand * (2/5)
      { a with leisureDepartureTime := .fin dep,
               leisureEndTime := .fin (dep + 1/5 + a.leisureDuration),
               phase := .at_home_considering_leisure }
    else { a with phase := .at_home_evening }
  else { a with phase := .at_home_evening }

/-- `_headHome(simHours, nextPhase)`. -/
def Agent.headHome (a : Agent) (simHours : ℚ) (nextPhase : Phase) (rand : ℚ) : Agent :=
  let a1 := a.navigateTo a.home
  if a1.path.isSome then
    { a1 with phase := nextPhase, state := .traveling }
  else
    let a2 := { a1 with x := (a1.home.1 : ℚ), y := (a1.home.2 : ℚ), state := .home }
    let a3 := a2.logEvent "Arrived home" simHours (a2.nameAt (some a2.home))
    if nextPhase = .commuting_home_from_work then a3.decideLeisure simHours rand
    else { a3 with phase := .at_home_evening }

/-- `Agent.update(simHours, deltaSeconds)`; `rand` is the `Math.random()`
draw consumed if `_decideLeisure` runs during this call. -/
def Agent.update (a : Agent) (simHours deltaSeconds rand : ℚ) : Agent :=
  match a.phase with
  | .sleeping =>
    if a.wakeUpTime ≤ simHours then
      ({ a with phase := .waiting_for_work, state := .home }).logEvent "Wake up" simHours
        (a.nameAt (some a.home))
    else a
  | .waiting_for_work =>
    if a.workStart ≤ simHours then
      let a1 := a.navigateTo a.workplace
      if a1.path.isSome then
        ({ a1 with phase := .commuting_to_work, state := .traveling }).logEvent "Left home"
          simHours (a1.nameAt (some a1.home))
      else a1
    else a
  | .commuting_to_work =>
    let r := a.moveStep deltaSeconds
    if r.2 then
      ({ r.1 with phase := .at_work, state := .working }).logEvent "Arrived work" simHours
        (r.1.nameAt (some r.1.workplace))
    else r.1
  | .at_work =>
    let a1 := if a.ordersDelivery ∧ ¬a.orderedDeliveryDone ∧ QInf.leNum a.orderTime simHours
      then ({ a with orderedDeliveryDone := true }).logEvent "Ordered delivery" simHours
        (a.nameAt a.eatery)
      else a
    if ¬a1.hadLunch ∧ a1.takesLunch ∧ QInf.leNum a1.lunchStart simHours then
      let a2 := { a1 with hadLunch := true }
      if a2.ordersDelivery then a2
      else
        let a3 := a2.logEvent "Left for lunch" simHours (a2.nameAt (some a2.workplace))
        let a4 := a3.navigateTo (a3.eatery.getD (0, 0))
        if a4.path.isSome then { a4 with phase := .commuting_to_lunch, state := .traveling }
        else a4
    else if a1.workEnd ≤ simHours then
      (a1.logEvent "Left work" simHours (a1.nameAt (some a1.workplace))).headHome simHours
        .commuting_home_from_work rand
    else a1
  | .commuting_to_lunch =>
    if a.workEnd ≤ simHours then
      (a.logEvent "Left work" simHours none).headHome simHours .commuting_home_from_work rand
    else
      let r := a.moveStep deltaSeconds
      if r.2 then
        ({ r.1 with phase := .at_lunch, state := .leisure }).logEvent "Arrived eatery" simHours
          (r.1.nameAt r.1.eatery)
      else r.1
  | .at_lunch =>
    if a.workEnd ≤ simHours then
      (a.logEvent "Left eatery (late)" simHours (a.nameAt a.eatery)).headHome simHours
        .commuting_home_from_work rand
    else if QInf.leNum a.lunchEnd simHours then
      let a1 := a.logEvent "Left eatery" simHours (a.nameAt a.eatery)
      let a2 := a1.navigateTo a1.workplace
      if a2.path.isSome then { a2 with phase := .returning_from_lunch, state := .traveling }
      else { a2 with phase := .at_work, state := .working }
    else a
  | .returning_from_lunch =>
    if a.workEnd ≤ simHours ∧ ¬a.path.isSome then
      (a.logEvent "Left work" simHours none).headHome simHours .commuting_home_from_work rand
    else
      let r := a.moveStep deltaSeconds
      if r.2 then
        ({ r.1 with phase := .at_work, state := .working }).logEvent "Returned to work"
          simHours (r.1.nameAt (some r.1.workplace))
      else r.1
  | .commuting_home_from_work =>
    let r := a.moveStep deltaSeconds
    if r.2 then
      (({ r.1 with state := .home }).logEvent "Arrived home" simHours
        (r.1.nameAt (some r.1.home))).decideLeisure simHours rand
    else r.1
  | .at_home_considering_leisure =>
    if QInf.leNum a.leisureDepartureTime simHours then
      let a1 := a.navigateTo (a.leisureSpot.getD (0, 0))
      if a1.path.isSome then
        ({ a1 with phase := .commuting_to_leisure, state := .traveling }).logEvent "Left home"
          simHours (a1.nameAt (some a1.home))
      else { a1 with phase := .at_home_evening }
    else a
  | .commuting_to_leisure =>
    let r := a.moveStep deltaSeconds
    if r.2 then
      ({ r.1 with phase := .at_leisure, state := .leisure }).logEvent "Arrived leisure"
        simHours (r.1.nameAt r.1.leisureSpot)
    else r.1
  | .at_leisure =>
    if QInf.leNum a.leisureEndTime simHours then
      (a.logEvent "Left leisure" simHours (a.nameAt a.leisureSpot)).headHome simHours
        .commuting_home_from_leisure rand
    else a
  | .commuting_home_from_leisure =>
    let r := a.moveStep deltaSeconds
    if r.2 then
      ({ r.1 with phase := .at_home_evening, state := .home }).logEvent "Arrived home"
        simHours (r.1.nameAt (some r.1.home))
    else r.1
  | .at_home_evening =>
    if a.bedTime ≤ simHours then
      ({ a with phase := .asleep_night, state := .sleeping }).logEvent "Went to sleep"
        simHours (a.nameAt (some a.home))
    else a
  | .asleep_night => a

/-! ### The DeliveryDriver (src/js/deliveryDriver.js) -/

/-- Courier phases (`waiting | delivering | dropping_off | returning | done`). -/
inductive DPhase
  | waiting | delivering | dropping_off | returning | done
deriving DecidableEq

/-- The `DeliveryDriver` object; the live back-reference to the owning
agent is replaced by passing the owner through `update`. -/
structure DeliveryDriver where
  eatery : Cell
  business : Cell
  city : City
  simHoursPerSec : ℚ
  x : ℚ
  y : ℚ
  speed : ℚ
  phase : DPhase
  path : Option (List Cell)
  pathIndex : Nat
  moveProgress : ℚ
  dropOffEnd : ℚ
  deliveryPath : Option (List Cell)
  departureTime : QInf

/-- The `DeliveryDriver` constructor (`rSpeed` is its `Math.random()`
draw): precompute the delivery path, and from it the departure time
`Math.max(0, lunchStart - travelSimHours)`; a missing or trivial path
makes the driver `done` immediately. -/
def DeliveryDriver.create (eatery business : Cell) (agent : Agent) (city : City)
    (simHoursPerSec : ℚ) (rSpeed : ℚ) : DeliveryDriver :=
  let speed := 7 + rSpeed * 2
  let dp := findPath city eatery.1 eatery.2 business.1 business.2
  let base : DeliveryDriver :=
    { eatery := eatery, business := business, city := city,
      simHoursPerSec := simHoursPerSec, x := (eatery.1 : ℚ), y := (eatery.2 : ℚ),
      speed := speed, phase := .waiting, path := none, pathIndex := 0, moveProgress := 0,
      dropOffEnd := 0, deliveryPath := dp, departureTime := .inf }
  match dp with
  | some p =>
    if 1 < p.length then
      { base with departureTime :=
          (agent.lunchStart.subQ ((((p.length : ℚ) - 1) / speed) * simHoursPerSec)).max0 }
    else { base with phase := .done }
  | none => { base with phase := .done }

def DeliveryDriver.moveStep (d : DeliveryDriver) (deltaSeconds : ℚ) :
    DeliveryDriver × Bool :=
  let r := moveCore d.speed deltaSeconds ⟨d.path, d.pathIndex, d.moveProgress, d.x, d.y⟩
  let d2 := { d with
    path := r.1.path, pathIndex := r.1.pathIndex, moveProgress := r.1.moveProgress,
    x := r.1.x, y := r.1.y }
  (d2, r.2)

def DeliveryDriver.navigateTo (d : DeliveryDriver) (target : Cell) : DeliveryDriver :=
  { d with
    path := findPath d.city (jsRound d.x) (jsRound d.y) target.1 target.2,
    pathIndex := 0, moveProgress := 0 }

/-- `DeliveryDriver.update(simHours, deltaSeconds)`, returning the updated
driver and the (possibly log-extended) owning agent. -/
def DeliveryDriver.update (d : DeliveryDriver) (agent : Agent)
    (simHours deltaSeconds : ℚ) : DeliveryDriver × Agent :=
  match d.phase with
  | .waiting =>
    if QInf.leNum d.departureTime simHours then
      let d2 := { d with
        path := d.deliveryPath, pathIndex := 0, moveProgress := 0,
        deliveryPath := none, phase := .delivering }
      (d2, agent)
    else (d, agent)
  | .delivering =>
    let r := d.moveStep deltaSeconds
    if r.2 then
      let eateryName := match d.city.getNameAt d.eatery.1 d.eatery.2 with
        | some n => n
        | none => "Eatery"
      let d2 := { r.1 with
        x := (d.business.1 : ℚ), y := (d.business.2 : ℚ),
        dropOffEnd := simHours + 10 / 60, phase := .dropping_off }
      (d2, agent.logEvent ("Delivery by " ++ eateryName) simHours (some eateryName))
    else (r.1, agent)
  | .dropping_off =>
    if d.dropOffEnd ≤ simHours then
      let d1 := d.navigateTo d.eatery
      ({ d1 with phase := if d1.path.isSome then .returning else .done }, agent)
    else (d, agent)
  | .returning =>
    let r := d.moveStep deltaSeconds
    if r.2 then ({ r.1 with phase := .done }, agent) else (r.1, agent)
  | .done => (d, agent)

/-! ### The driver loop and driver creation (src/js/simulation.js) -/

def SIM_DURATION_REAL : ℚ := 180
def SIM_DURATION_HOURS : ℚ := 24

/-- The driver-creation loop at the end of `_createAgents`: one courier
per agent with `ordersDelivery`, spawned at that agent's eatery; `rand i`
is the i-th created driver's speed draw. -/
def mkDrivers (city : City) (simHoursPerSec : ℚ) (rand : Nat → ℚ) :
    List Agent → Nat → List (Agent × DeliveryDriver)
  | [], _ => []
  | agent :: rest, i =>
    if agent.ordersDelivery then
      (agent, DeliveryDriver.create (agent.eatery.getD (0, 0)) agent.workplace agent city
        simHoursPerSec (rand i)) :: mkDrivers city simHoursPerSec rand rest (i + 1)
    else mkDrivers city simHoursPerSec rand rest i

/-- Run an agent alone through a list of ticks
`(simHours, deltaSeconds, rand)`. -/
def runAgent (a : Agent) (ticks : List (ℚ × ℚ × ℚ)) : Agent :=
  ticks.foldl (fun acc t => acc.update t.1 t.2.1 t.2.2) a

/-- One tick of the main loop (`_loop`) restricted to one agent and its
courier: the agent is advanced first, then the courier, with the same
simulated hour and real delta. -/
def runPair (ad : Agent × DeliveryDriver) (ticks : List (ℚ × ℚ × ℚ)) :
    Agent × DeliveryDriver :=
  ticks.foldl (fun acc t =>
    let a1 := acc.1.update t.1 t.2.1 t.2.2
    let r := acc.2.update a1 t.1 t.2.1
    (r.2, r.1)) ad

/-! ### Field-preservation helpers for `Agent.update` -/

@[simp]
theorem logEvent_phase (a : Agent) (e : String) (t : ℚ) (l : Option String) :
    (a.logEvent e t l).phase = a.phase := rfl

@[simp]
theorem moveStep_phase (a : Agent) (d : ℚ) : (a.moveStep d).1.phase = a.phase := rfl

@[simp]
theorem navigateTo_phase (a : Agent) (tgt : Cell) : (a.navigateTo tgt).phase = a.phase := by
  rcases h : findPath a.city (jsRound a.x) (jsRound a.y) tgt.1 tgt.2 with _ | pp
  · simp [Agent.navigateTo, h]
  · by_cases h2 : 1 < pp.length <;> simp [Agent.navigateTo, h, h2]

theorem decideLeisure_phase (a : Agent) (t r : ℚ) :
    (a.decideLeisure t r).phase = .at_home_considering_leisure ∨
    (a.decideLeisure t r).phase = .at_home_evening := by
  unfold Agent.decideLeisure
  split_ifs <;> simp

theorem headHome_phase (a : Agent) (t : ℚ) (next : Phase) (r : ℚ) :
    (a.headHome t next r).phase = next ∨
    (a.headHome t next r).phase = .at_home_considering_leisure ∨
    (a.headHome t next r).phase = .at_home_evening := by
  unfold Agent.headHome
  by_cases hp : (a.navigateTo a.home).path.isSome = true
  · simp only [hp, if_true]
    left
    trivial
  · simp only [hp, Bool.false_eq_true, if_false]
    by_cases hn : next = Phase.commuting_home_from_work
    · simp only [hn, if_true, if_pos rfl]
      right
      exact decideLeisure_phase _ t r
    · simp only [if_neg hn]
      right; right
      trivial

/-- If the requested next phase is not the commute-home-from-work phase, the
arrival handler never enters the considering-leisure phase. -/
theorem headHome_phase_ne (a : Agent) (t r : ℚ) (next : Phase)
    (hn : ¬ next = Phase.commuting_home_from_work) :
    (a.headHome t next r).phase = next ∨
    (a.headHome t next r).phase = .at_home_evening := by
  unfold Agent.headHome
  by_cases hp : (a.navigateTo a.home).path.isSome = true
  · simp only [hp, if_true]
    left
    trivial
  · simp only [hp, Bool.false_eq_true, if_false, if_neg hn]
    right
    trivial

/-! ### Claim C7 -/

/-- C7: an actor arriving home after work at simulated hour `t` (the
`_decideLeisure` arrival handler) proceeds to considering-leisure if and
only if it is leisure-eligible, has a leisure site, and
`t + 0.5 + leisureDuration + 0.5 ≤ curfew`; otherwise it proceeds to the
evening-at-home phase.  The curfew produced by the constructor is bedtime
minus one hour. -/
theorem decideLeisure_correct :
    (∀ (a : Agent) (t rand : ℚ),
      (a.decideLeisure t rand).phase =
        if a.wantsLeisure ∧ a.leisureSpot.isSome ∧
            t + 1/2 + a.leisureDuration + 1/2 ≤ a.curfew
        then Phase.at_home_considering_leisure else Phase.at_home_evening) ∧
    (∀ (id : Nat) (home workplace : Cell) (ls eat : Option Cell) (city : City)
        (r1 r2 r3 r4 r5 r6 r7 r8 r9 r10 r11 : ℚ),
      (Agent.create id home workplace ls eat city r1 r2 r3 r4 r5 r6 r7 r8 r9 r10 r11).curfew =
        (Agent.create id home workplace ls eat city r1 r2 r3 r4 r5 r6 r7 r8 r9 r10 r11).bedTime
          - 1) := by
  constructor
  · intro a t rand
    unfold Agent.decideLeisure
    by_cases h1 : (a.wantsLeisure ∧ a.leisureSpot.isSome)
    · by_cases h2 : t + 1/2 + a.leisureDuration + 1/2 ≤ a.curfew
      · rw [if_pos h1, if_pos h2, if_pos ⟨h1.1, h1.2, h2⟩]
      · rw [if_pos h1, if_neg h2, if_neg (by tauto)]
    · rw [if_neg h1, if_neg (by tauto)]
  · intro id home workplace ls eat city r1 r2 r3 r4 r5 r6 r7 r8 r9 r10 r11
    rfl

/-! ### Claim C2

The phase-transition graph of the spec, read over the code's phases: the
transient "arrived home" moment is collapsed into its two successor phases
(considering-leisure / evening-at-home), and a not-found route collapses the
corresponding travel phase (the mover is treated as already arrived). -/

def specEdges : List (Phase × Phase) := [
  (.sleeping, .waiting_for_work),
  (.waiting_for_work, .commuting_to_work),
  (.commuting_to_work, .at_work),
  (.at_work, .commuting_to_lunch),
  (.at_work, .commuting_home_from_work),
  (.at_work, .at_home_considering_leisure),
  (.at_work, .at_home_evening),
  (.commuting_to_lunch, .at_lunch),
  (.commuting_to_lunch, .commuting_home_from_work),
  (.commuting_to_lunch, .at_home_considering_leisure),
  (.commuting_to_lunch, .at_home_evening),
  (.at_lunch, .returning_from_lunch),
  (.at_lunch, .at_work),
  (.at_lunch, .commuting_home_from_work),
  (.at_lunch, .at_home_considering_leisure),
  (.at_lunch, .at_home_evening),
  (.returning_from_lunch, .at_work),
  (.returning_from_lunch, .commuting_home_from_work),
  (.returning_from_lunch, .at_home_considering_leisure),
  (.returning_from_lunch, .at_home_evening),
  (.commuting_home_from_work, .at_home_considering_leisure),
  (.commuting_home_from_work, .at_home_evening),
  (.at_home_considering_leisure, .commuting_to_leisure),
  (.at_home_considering_leisure, .at_home_evening),
  (.commuting_to_leisure, .at_leisure),
  (.at_leisure, .commuting_home_from_leisure),
  (.at_leisure, .at_home_evening),
  (.commuting_home_from_leisure, .at_home_evening),
  (.at_home_evening, .asleep_night)]

def specEdge (p q : Phase) : Prop := (p, q) ∈ specEdges

instance (p q : Phase) : Decidable (specEdge p q) :=
  inferInstanceAs (Decidable ((p, q) ∈ specEdges))

theorem headHome_edge (a : Agent) (t : ℚ) (r : ℚ) (p0 : Phase)
    (hwork : specEdge p0 .commuting_home_from_work)
    (hcons : specEdge p0 .at_home_considering_leisure)
    (heve : specEdge p0 .at_home_evening) :
    specEdge p0 ((a.headHome t .commuting_home_from_work r).phase) := by
  rcases headHome_phase a t .commuting_home_from_work r with hh | hh | hh <;> rw [hh]
  · exact hwork
  · exact hcons
  · exact heve

theorem phase_step_edge (a : Agent) (h d r : ℚ) :
    (a.update h d r).phase = a.phase ∨ specEdge a.phase ((a.update h d r).phase) := by
  cases hp : a.phase with
  | sleeping =>
    simp only [Agent.update, hp]
    by_cases h1 : a.wakeUpTime ≤ h
    · rw [if_pos h1]
      right
      simp only [logEvent_phase]
      decide
    · rw [if_neg h1]
      left
      exact hp
  | waiting_for_work =>
    simp only [Agent.update, hp]
    by_cases h1 : a.workStart ≤ h
    · rw [if_pos h1]
      by_cases h2 : (a.navigateTo a.workplace).path.isSome = true
      · rw [if_pos h2]
        right
        simp only [logEvent_phase]
        decide
      · rw [if_neg h2]
        left
        simp only [navigateTo_phase, hp]
    · rw [if_neg h1]
      left
      exact hp
  | commuting_to_work =>
    simp only [Agent.update, hp]
    by_cases hm : (a.moveStep d).2 = true
    · rw [if_pos hm]
      right
      simp only [logEvent_phase]
      decide
    · rw [if_neg hm]
      left
      simp only [moveStep_phase, hp]
  | at_work =>
    simp only [Agent.update, hp, Agent.logEvent]
    split_ifs <;>
      first
        | (left; simp [hp]; done)
        | (right; simp only [logEvent_phase]; decide)
        | (right; apply headHome_edge <;> decide)
  | commuting_to_lunch =>
    simp only [Agent.update, hp, Agent.logEvent]
    split_ifs <;>
      first
        | (left; simp [hp]; done)
        | (right; simp only [logEvent_phase]; decide)
        | (right; apply headHome_edge <;> decide)
  | at_lunch =>
    simp only [Agent.update, hp, Agent.logEvent]
    split_ifs <;>
      first
        | (left; simp [hp]; done)
        | (right; simp only [logEvent_phase]; decide)
        | (right; apply headHome_edge <;> decide)
  | returning_from_lunch =>
    simp only [Agent.update, hp, Agent.logEvent]
    split_ifs <;>
      first
        | (left; simp [hp]; done)
        | (right; simp only [logEvent_phase]; decide)
        | (right; apply headHome_edge <;> decide)
  | commuting_home_from_work =>
    simp only [Agent.update, hp, Agent.logEvent]
    split_ifs <;>
      first
        | (left; simp [hp]; done)
        | (right; simp only [logEvent_phase]; decide)
        | (right; exact (decideLeisure_phase _ h r).elim
            (fun hh => by rw [hh]; decide) (fun hh => by rw [hh]; decide))
  | at_home_considering_leisure =>
    simp only [Agent.update, hp, Agent.logEvent]
    split_ifs <;>
      first
        | (left; simp [hp]; done)
        | (right; simp only [logEvent_phase]; decide)
        | (right; apply headHome_edge <;> decide)
  | commuting_to_leisure =>
    simp only [Agent.update, hp, Agent.logEvent]
    split_ifs <;>
      first
        | (left; simp [hp]; done)
        | (right; simp only [logEvent_phase]; decide)
  | at_leisure =>
    simp only [Agent.update, hp, Agent.logEvent]
    split_ifs <;>
      first
        | (left; simp [hp]; done)
        | (right; simp only [logEvent_phase]; decide)
        | (right; rcases headHome_phase_ne _ h r .commuting_home_from_leisure (by decide) with hh | hh <;>
            (rw [hh]; decide))
  | commuting_home_from_leisure =>
    simp only [Agent.update, hp, Agent.logEvent]
    split_ifs <;>
      first
        | (left; simp [hp]; done)
        | (right; simp only [logEvent_phase]; decide)
  | at_home_evening =>
    simp only [Agent.update, hp, Agent.logEvent]
    split_ifs <;>
      first
        | (left; simp [hp]; done)
        | (right; simp only [logEvent_phase]; decide)
  | asleep_night =>
    left
    simp only [Agent.update, hp]

/-- The sequence of agent states visited along a run: the initial state
followed by the state after each tick. -/
def agentTrace (a : Agent) (ticks : List (ℚ × ℚ × ℚ)) : List Agent :=
  ticks.scanl (fun acc t => acc.update t.1 t.2.1 t.2.2) a

theorem agentTrace_head (a : Agent) (ticks : List (ℚ × ℚ × ℚ)) :
    (agentTrace a ticks).head? = some a := by
  cases ticks <;> rfl

theorem agentTrace_chain (a : Agent) (ticks : List (ℚ × ℚ × ℚ)) :
    List.Chain' (fun x y => y.phase = x.phase ∨ specEdge x.phase y.phase)
      (agentTrace a ticks) := by
  induction ticks generalizing a with
  | nil =>
    simp [agentTrace]
  | cons t ts ih =>
    have h1 : agentTrace a (t :: ts) = a :: agentTrace (a.update t.1 t.2.1 t.2.2) ts := rfl
    rw [h1, List.chain'_cons']
    refine ⟨fun y hy => ?_, ih _⟩
    rw [agentTrace_head] at hy
    simp only [Option.mem_def, Option.some.injEq] at hy
    subst hy
    exact phase_step_edge a t.1 t.2.1 t.2.2

theorem agentTrace_getLast (a : Agent) (ticks : List (ℚ × ℚ × ℚ)) :
    (agentTrace a ticks).getLast? = some (runAgent a ticks) := by
  induction ticks generalizing a with
  | nil => rfl
  | cons t ts ih =>
    have h1 : agentTrace a (t :: ts) = a :: agentTrace (a.update t.1 t.2.1 t.2.2) ts := rfl
    rw [h1]
    rcases hl : agentTrace (a.update t.1 t.2.1 t.2.2) ts with _ | ⟨b, rest⟩
    · have := agentTrace_head (a.update t.1 t.2.1 t.2.2) ts
      rw [hl] at this
      exact absurd this (by simp)
    · rw [List.getLast?_cons_cons, ← hl]
      exact ih _

/-- C2: each call to `Agent.update` moves the phase along at most one edge of
the §4.2 phase-transition graph, here `specEdges` (the graph on the code's
phases, with the transient just-arrived-home node collapsed into its
successors considering-leisure and evening-at-home, and with the rule that a
not-found route means the travel phase is skipped); consequently the phase
sequence realized along any run is a path in that graph. -/
theorem update_one_edge :
    (∀ (a : Agent) (h d r : ℚ),
      (a.update h d r).phase = a.phase ∨ specEdge a.phase ((a.update h d r).phase)) ∧
    (∀ (a : Agent) (ticks : List (ℚ × ℚ × ℚ)),
      List.Chain' (fun x y => y.phase = x.phase ∨ specEdge x.phase y.phase)
        (agentTrace a ticks) ∧
      (agentTrace a ticks).getLast? = some (runAgent a ticks)) :=
  ⟨phase_step_edge, fun a ticks => ⟨agentTrace_chain a ticks, agentTrace_getLast a ticks⟩⟩

/-! ### Log-evolution helpers (shared by the log-related claims) -/

/-- `l2` extends `l1` by entries that are all timestamped `h`. -/
def LogExt (h : ℚ) (l1 l2 : List LogEntry) : Prop :=
  ∃ es, l2 = l1 ++ es ∧ ∀ e ∈ es, e.time = h

theorem logExt_refl (h : ℚ) (l : List LogEntry) : LogExt h l l :=
  ⟨[], by simp, by simp⟩

theorem logExt_of_all (h : ℚ) (l es : List LogEntry) (he : ∀ e ∈ es, e.time = h) :
    LogExt h l (l ++ es) := ⟨es, rfl, he⟩

@[simp]
theorem moveStep_log (a : Agent) (d : ℚ) : (a.moveStep d).1.log = a.log := rfl

@[simp]
theorem navigateTo_log (a : Agent) (tgt : Cell) : (a.navigateTo tgt).log = a.log := by
  rcases h : findPath a.city (jsRound a.x) (jsRound a.y) tgt.1 tgt.2 with _ | pp
  · simp [Agent.navigateTo, h]
  · by_cases h2 : 1 < pp.length <;> simp [Agent.navigateTo, h, h2]

@[simp]
theorem decideLeisure_log (a : Agent) (t r : ℚ) : (a.decideLeisure t r).log = a.log := by
  unfold Agent.decideLeisure
  split_ifs <;> rfl

/-- One `Agent.update` call only appends log entries, all timestamped with
the current simulated hour. -/
theorem update_logExt (a : Agent) (h d r : ℚ) : LogExt h a.log ((a.update h d r).log) := by
  cases hp : a.phase with
  | asleep_night =>
    simp only [Agent.update, hp]
    exact logExt_refl h _
  | _ =>
    simp only [Agent.update, Agent.headHome, Agent.logEvent, hp, moveStep_log,
      navigateTo_log, decideLeisure_log]
    split_ifs <;>
      first
        | exact logExt_refl h _
        | (simp only [List.append_assoc, List.cons_append, List.nil_append,
            moveStep_log, navigateTo_log, decideLeisure_log]
           first
             | exact logExt_refl h _
             | (refine logExt_of_all h _ _ ?_; simp))

/-- One `DeliveryDriver.update` call only appends entries to the owning
agent's log, all timestamped with the current simulated hour. -/
theorem driver_update_logExt (dr : DeliveryDriver) (ag : Agent) (h d : ℚ) :
    LogExt h ag.log (((dr.update ag h d).2).log) := by
  cases hp : dr.phase with
  | delivering =>
    simp only [DeliveryDriver.update, hp, Agent.logEvent]
    split_ifs <;>
      first
        | exact logExt_refl h _
        | (unfold LogExt; exact ⟨_, rfl, by simp⟩)
  | _ =>
    simp only [DeliveryDriver.update, hp]
    first
      | exact logExt_refl h _
      | (split_ifs <;> exact logExt_refl h _)

theorem logExt_trans (h : ℚ) {l1 l2 l3 : List LogEntry}
    (h12 : LogExt h l1 l2) (h23 : LogExt h l2 l3) : LogExt h l1 l3 := by
  obtain ⟨es1, he1, ht1⟩ := h12
  obtain ⟨es2, he2, ht2⟩ := h23
  refine ⟨es1 ++ es2, by rw [he2, he1, List.append_assoc], ?_⟩
  intro e he
  rcases List.mem_append.mp he with h' | h'
  · exact ht1 e h'
  · exact ht2 e h'

/-- A batch of same-timestamp entries is (weakly) sorted by time. -/
theorem sorted_times_const (h : ℚ) (es : List LogEntry)
    (ht : ∀ e ∈ es, e.time = h) :
    List.Sorted (· ≤ ·) (es.map (fun e => e.time)) := by
  rw [List.Sorted, List.pairwise_map]
  refine List.pairwise_of_forall_mem_list ?_
  intro x hx y hy
  rw [ht x hx, ht y hy]

/-! ### Claim C10 -/

/-- C10: if the simulated-hour values passed across ticks to an agent's
`update` and to its courier's `update` are non-decreasing, then the
timestamps of the entries of the agent's event log (including the courier's
"Delivery by ..." entry appended into the owning agent's log) are
non-decreasing in append order. -/
theorem log_timestamps_monotone (a : Agent) (dr : DeliveryDriver)
    (ticks : List (ℚ × ℚ × ℚ))
    (hticks : List.Sorted (· ≤ ·) (ticks.map (fun t => t.1)))
    (hsorted : List.Sorted (· ≤ ·) (a.log.map (fun e => e.time)))
    (hbound : ∀ e ∈ a.log, ∀ t ∈ ticks, e.time ≤ t.1) :
    List.Sorted (· ≤ ·) (((runPair (a, dr) ticks).1.log).map (fun e => e.time)) := by
  induction ticks generalizing a dr with
  | nil => exact hsorted
  | cons t ts ih =>
    have hstep : runPair (a, dr) (t :: ts) =
        runPair ((dr.update (a.update t.1 t.2.1 t.2.2) t.1 t.2.1).2,
          (dr.update (a.update t.1 t.2.1 t.2.2) t.1 t.2.1).1) ts := rfl
    rw [hstep]
    obtain ⟨es, heq, htimes⟩ := logExt_trans t.1 (update_logExt a t.1 t.2.1 t.2.2)
      (driver_update_logExt dr (a.update t.1 t.2.1 t.2.2) t.1 t.2.1)
    have hmap : (t :: ts).map (fun t => t.1) = t.1 :: ts.map (fun t => t.1) := rfl
    rw [hmap] at hticks
    have hticks' : List.Sorted (· ≤ ·) (ts.map (fun t => t.1)) :=
      (List.pairwise_cons.mp hticks).2
    have hfirst : ∀ t' ∈ ts, t.1 ≤ t'.1 := fun t' ht' =>
      (List.pairwise_cons.mp hticks).1 t'.1 (List.mem_map_of_mem _ ht')
    refine ih _ _ hticks' ?_ ?_
    · rw [heq, List.map_append, List.Sorted, List.pairwise_append]
      refine ⟨hsorted, sorted_times_const t.1 es htimes, ?_⟩
      intro x hx y hy
      obtain ⟨ex, hex, hx'⟩ := List.mem_map.mp hx
      obtain ⟨ey, hey, hy'⟩ := List.mem_map.mp hy
      rw [← hx', ← hy', htimes ey hey]
      exact hbound ex hex t (List.mem_cons_self _ _)
    · intro e he t' ht'
      rw [heq] at he
      rcases List.mem_append.mp he with h' | h'
      · exact hbound e h' t' (List.mem_cons_of_mem _ ht')
      · rw [htimes e h']
        exact hfirst t' ht'

/-- A concrete agent on `cityW` (all random draws 0). -/
def agW : Agent :=
  Agent.create 0 (0, 0) (2, 0) (some (0, 0)) (some (2, 0)) cityW 0 0 0 0 0 0 0 0 0 0 0

/-- A concrete courier for `agW`. -/
def drvW : DeliveryDriver :=
  DeliveryDriver.create (2, 0) (2, 0) agW cityW (24 / 180) 0

/-- Witness for the C10 theorem at a concrete agent, courier, and tick
list. -/
theorem log_timestamps_monotone_witness :
    List.Sorted (· ≤ ·)
      (((runPair (agW, drvW) [(6, 1, 0), (7, 1, 0)]).1.log).map (fun e => e.time)) :=
  log_timestamps_monotone agW drvW [(6, 1, 0), (7, 1, 0)] (by decide) (by decide)
    (by decide)

/-! ### Claim C9 -/

/-- Number of "Ordered delivery" entries in a log. -/
def countOrders (l : List LogEntry) : Nat :=
  List.countP (fun e => e.event == "Ordered delivery") l

@[simp]
theorem logEvent_ordersDelivery (a : Agent) (e : String) (t : ℚ) (l : Option String) :
    (a.logEvent e t l).ordersDelivery = a.ordersDelivery := rfl

@[simp]
theorem moveStep_ordersDelivery (a : Agent) (d : ℚ) :
    (a.moveStep d).1.ordersDelivery = a.ordersDelivery := rfl

@[simp]
theorem navigateTo_ordersDelivery (a : Agent) (tgt : Cell) :
    (a.navigateTo tgt).ordersDelivery = a.ordersDelivery := by
  rcases h : findPath a.city (jsRound a.x) (jsRound a.y) tgt.1 tgt.2 with _ | pp
  · simp [Agent.navigateTo, h]
  · by_cases h2 : 1 < pp.length <;> simp [Agent.navigateTo, h, h2]

@[simp]
theorem decideLeisure_ordersDelivery (a : Agent) (t r : ℚ) :
    (a.decideLeisure t r).ordersDelivery = a.ordersDelivery := by
  unfold Agent.decideLeisure
  split_ifs <;> rfl

/-- `Agent.update` never changes the `ordersDelivery` flag. -/
theorem update_ordersDelivery (a : Agent) (h d r : ℚ) :
    (a.update h d r).ordersDelivery = a.ordersDelivery := by
  cases hp : a.phase <;>
    ((simp only [Agent.update, Agent.headHome, Agent.logEvent, hp]) <;>
      first
        | rfl
        | (split_ifs <;> simp))

/-- An agent that does not order a delivery never logs an
"Ordered delivery" event. -/
theorem update_countOrders (a : Agent) (h d r : ℚ) (ho : a.ordersDelivery = false) :
    countOrders ((a.update h d r).log) = countOrders a.log := by
  cases hp : a.phase <;>
    ((simp only [Agent.update, Agent.headHome, Agent.logEvent, hp, ho,
      Bool.false_eq_true, false_and, if_false, moveStep_log, navigateTo_log,
      decideLeisure_log]) <;>
      first
        | rfl
        | (split_ifs <;> simp [countOrders]))

theorem runAgent_countOrders (a : Agent) (ticks : List (ℚ × ℚ × ℚ))
    (ho : a.ordersDelivery = false) :
    countOrders ((runAgent a ticks).log) = countOrders a.log := by
  induction ticks generalizing a with
  | nil => rfl
  | cons t ts ih =>
    have hstep : runAgent a (t :: ts) = runAgent (a.update t.1 t.2.1 t.2.2) ts := rfl
    rw [hstep, ih _ (by rw [update_ordersDelivery]; exact ho),
      update_countOrders a t.1 t.2.1 t.2.2 ho]

theorem mkDrivers_orders (city : City) (f : ℚ) (rand : Nat → ℚ)
    (agents : List Agent) (i : Nat) (pr : Agent × DeliveryDriver)
    (hmem : pr ∈ mkDrivers city f rand agents i) : pr.1.ordersDelivery = true := by
  induction agents generalizing i with
  | nil => simp [mkDrivers] at hmem
  | cons ag rest ih =>
    rw [mkDrivers] at hmem
    by_cases hag : ag.ordersDelivery = true
    · rw [if_pos hag] at hmem
      rcases List.mem_cons.mp hmem with h' | h'
      · rw [h']
        exact hag
      · exact ih _ h'
    · rw [if_neg hag] at hmem
      exact ih _ hmem

/-- C9: a delivery is ordered only by agents that take lunch: a constructed
agent with `takesLunch = false` has `ordersDelivery = false`; an agent with
`ordersDelivery = false` never adds an "Ordered delivery" entry to its log
during a run; couriers are spawned only for agents with
`ordersDelivery = true`; and in particular a constructed agent with
`takesLunch = false` ends any run with zero "Ordered delivery" entries. -/
theorem no_lunch_no_delivery :
    (∀ (id : Nat) (home workplace : Cell) (ls eat : Option Cell) (city : City)
        (r1 r2 r3 r4 r5 r6 r7 r8 r9 r10 r11 : ℚ),
      (Agent.create id home workplace ls eat city r1 r2 r3 r4 r5 r6 r7 r8 r9 r10
        r11).takesLunch = false →
      (Agent.create id home workplace ls eat city r1 r2 r3 r4 r5 r6 r7 r8 r9 r10
        r11).ordersDelivery = false) ∧
    (∀ (a : Agent) (ticks : List (ℚ × ℚ × ℚ)), a.ordersDelivery = false →
      countOrders ((runAgent a ticks).log) = countOrders a.log) ∧
    (∀ (city : City) (f : ℚ) (rand : Nat → ℚ) (agents : List Agent) (i : Nat)
        (pr : Agent × DeliveryDriver), pr ∈ mkDrivers city f rand agents i →
      pr.1.ordersDelivery = true) ∧
    (∀ (id : Nat) (home workplace : Cell) (ls eat : Option Cell) (city : City)
        (r1 r2 r3 r4 r5 r6 r7 r8 r9 r10 r11 : ℚ) (ticks : List (ℚ × ℚ × ℚ)),
      (Agent.create id home workplace ls eat city r1 r2 r3 r4 r5 r6 r7 r8 r9 r10
        r11).takesLunch = false →
      countOrders ((runAgent (Agent.create id home workplace ls eat city r1 r2 r3 r4
        r5 r6 r7 r8 r9 r10 r11) ticks).log) = 0) := by
  have hcreate : ∀ (id : Nat) (home workplace : Cell) (ls eat : Option Cell) (city : City)
      (r1 r2 r3 r4 r5 r6 r7 r8 r9 r10 r11 : ℚ),
      (Agent.create id home workplace ls eat city r1 r2 r3 r4 r5 r6 r7 r8 r9 r10
        r11).takesLunch = false →
      (Agent.create id home workplace ls eat city r1 r2 r3 r4 r5 r6 r7 r8 r9 r10
        r11).ordersDelivery = false := by
    intro id home workplace ls eat city r1 r2 r3 r4 r5 r6 r7 r8 r9 r10 r11 ht
    simp only [Agent.create] at ht ⊢
    rw [ht, Bool.false_and]
  refine ⟨hcreate, fun a ticks ho => runAgent_countOrders a ticks ho,
    mkDrivers_orders, ?_⟩
  intro id home workplace ls eat city r1 r2 r3 r4 r5 r6 r7 r8 r9 r10 r11 ticks ht
  rw [runAgent_countOrders _ _ (hcreate _ _ _ _ _ _ _ _ _ _ _ _ _ _ _ _ _ ht)]
  rfl

/-- Witness for the C9 theorem: a concrete agent constructed with a lunch
draw above the threshold takes no lunch, and a one-tick run logs no
"Ordered delivery" event. -/
theorem no_lunch_no_delivery_witness :
    countOrders ((runAgent (Agent.create 0 (0, 0) (2, 0) none none cityW 0 0 0 0 1 0
      0 0 0 0 0) [(6, 1, 0)]).log) = 0 :=
  no_lunch_no_delivery.2.2.2 0 (0, 0) (2, 0) none none cityW 0 0 0 0 1 0 0 0 0 0 0
    [(6, 1, 0)] (by decide)

/-! ### Claim C3 -/

@[simp]
theorem logEvent_x (a : Agent) (e : String) (t : ℚ) (l : Option String) :
    (a.logEvent e t l).x = a.x := rfl

@[simp]
theorem logEvent_y (a : Agent) (e : String) (t : ℚ) (l : Option String) :
    (a.logEvent e t l).y = a.y := rfl

@[simp]
theorem navigateTo_x (a : Agent) (tgt : Cell) : (a.navigateTo tgt).x = a.x := by
  rcases h : findPath a.city (jsRound a.x) (jsRound a.y) tgt.1 tgt.2 with _ | pp
  · simp [Agent.navigateTo, h]
  · by_cases h2 : 1 < pp.length <;> simp [Agent.navigateTo, h, h2]

@[simp]
theorem navigateTo_y (a : Agent) (tgt : Cell) : (a.navigateTo tgt).y = a.y := by
  rcases h : findPath a.city (jsRound a.x) (jsRound a.y) tgt.1 tgt.2 with _ | pp
  · simp [Agent.navigateTo, h]
  · by_cases h2 : 1 < pp.length <;> simp [Agent.navigateTo, h, h2]

@[simp]
theorem decideLeisure_x (a : Agent) (t r : ℚ) : (a.decideLeisure t r).x = a.x := by
  unfold Agent.decideLeisure
  split_ifs <;> rfl

@[simp]
theorem decideLeisure_y (a : Agent) (t r : ℚ) : (a.decideLeisure t r).y = a.y := by
  unfold Agent.decideLeisure
  split_ifs <;> rfl

theorem navigateTo_none (a : Agent) (tgt : Cell)
    (h : findPath a.city (jsRound a.x) (jsRound a.y) tgt.1 tgt.2 = none) :
    (a.navigateTo tgt).path = none := by
  simp [Agent.navigateTo, h]

/-- A 3×1 city with no roads at all: every route between distinct cells is
not-found. -/
def cityE : City :=
  { cols := 3, rows := 1, grid := fun _ _ => TILE.EMPTY,
    names := fun _ _ => none }

/-- An agent of `cityE` standing at its workplace `(2,0)` at the end of its
work day, with home `(0,0)` unreachable. -/
def agC3 : Agent :=
  { id := 0, home := (0, 0), workplace := (2, 0), leisureSpot := none, eatery := none,
    city := cityE, x := 2, y := 0, state := .working, path := none, pathIndex := 0,
    moveProgress := 0, speed := 5, workStart := 6, wakeUpTime := 5, workDuration := 8,
    workEnd := 14, takesLunch := false, lunchDuration := 0, lunchStart := .inf,
    lunchEnd := .inf, hadLunch := false, ordersDelivery := false,
    orderedDeliveryDone := false, orderTime := .inf, wantsLeisure := false,
    leisureDuration := 1, bedTime := 20, curfew := 19, log := [], pathHistory := [],
    phase := .at_work, leisureDepartureTime := .inf, leisureEndTime := .inf }

/-- C3 counterexample: `agC3`'s end-of-work tick requests the route
`(2,0) → (0,0)`, whose computation returns not-found; yet after the tick the
actor's position has changed (it is snapped to its home cell) and a phase
transition has occurred. -/
theorem position_changes_on_lost_route :
    findPath cityE 2 0 0 0 = none ∧
    agC3.x = 2 ∧ agC3.phase = Phase.at_work ∧
    (agC3.update 14 1 0).x = 0 ∧
    (agC3.update 14 1 0).phase = Phase.at_home_evening := by
  decide

@[simp]
theorem navigateTo_path (a : Agent) (tgt : Cell) :
    (a.navigateTo tgt).path =
      findPath a.city (jsRound a.x) (jsRound a.y) tgt.1 tgt.2 := by
  rcases h : findPath a.city (jsRound a.x) (jsRound a.y) tgt.1 tgt.2 with _ | pp
  · simp [Agent.navigateTo, h]
  · by_cases h2 : 1 < pp.length <;> simp [Agent.navigateTo, h, h2]

@[simp]
theorem navigateTo_home (a : Agent) (tgt : Cell) : (a.navigateTo tgt).home = a.home := by
  rcases h : findPath a.city (jsRound a.x) (jsRound a.y) tgt.1 tgt.2 with _ | pp
  · simp [Agent.navigateTo, h]
  · by_cases h2 : 1 < pp.length <;> simp [Agent.navigateTo, h, h2]

/-- C3 amended: when a requested route returns not-found, an *outbound* trip
(home→work, work→eatery, home→leisure) is a no-op: position is unchanged and
the travel phase is not entered (the leisure attempt falls through to the
evening phase); a *homebound* trip (the `_headHome` handler) instead snaps
the actor's position to its home cell and transitions directly to the
arrival handling (considering-leisure or evening-at-home), skipping the
travel phase. -/
theorem noRoute_noMove :
    (∀ (a : Agent) (tgt : Cell),
      findPath a.city (jsRound a.x) (jsRound a.y) tgt.1 tgt.2 = none →
      (a.navigateTo tgt).x = a.x ∧ (a.navigateTo tgt).y = a.y ∧
      (a.navigateTo tgt).path = none ∧ (a.navigateTo tgt).phase = a.phase) ∧
    (∀ (a : Agent) (h d r : ℚ), a.phase = .waiting_for_work →
      findPath a.city (jsRound a.x) (jsRound a.y) a.workplace.1 a.workplace.2 = none →
      (a.update h d r).x = a.x ∧ (a.update h d r).y = a.y ∧
      (a.update h d r).phase = .waiting_for_work) ∧
    (∀ (a : Agent) (h d r : ℚ), a.phase = .at_work → ¬ a.workEnd ≤ h →
      findPath a.city (jsRound a.x) (jsRound a.y) (a.eatery.getD (0, 0)).1
        (a.eatery.getD (0, 0)).2 = none →
      (a.update h d r).x = a.x ∧ (a.update h d r).y = a.y ∧
      (a.update h d r).phase = .at_work) ∧
    (∀ (a : Agent) (h d r : ℚ), a.phase = .at_home_considering_leisure →
      findPath a.city (jsRound a.x) (jsRound a.y) (a.leisureSpot.getD (0, 0)).1
        (a.leisureSpot.getD (0, 0)).2 = none →
      (a.update h d r).x = a.x ∧ (a.update h d r).y = a.y ∧
      ((a.update h d r).phase = .at_home_considering_leisure ∨
       (a.update h d r).phase = .at_home_evening)) ∧
    (∀ (a : Agent) (t r : ℚ) (np : Phase),
      findPath a.city (jsRound a.x) (jsRound a.y) a.home.1 a.home.2 = none →
      (a.headHome t np r).x = (a.home.1 : ℚ) ∧
      (a.headHome t np r).y = (a.home.2 : ℚ) ∧
      ((a.headHome t np r).phase = .at_home_considering_leisure ∨
       (a.headHome t np r).phase = .at_home_evening)) := by
  refine ⟨?_, ?_, ?_, ?_, ?_⟩
  · intro a tgt hf
    exact ⟨navigateTo_x a tgt, navigateTo_y a tgt,
      navigateTo_none a tgt hf, navigateTo_phase a tgt⟩
  · intro a h d r hp hf
    simp only [Agent.update, hp, Agent.logEvent, navigateTo_path, hf,
      Option.isSome_none, Bool.false_eq_true, if_false]
    split_ifs <;> simp [hp]
  · intro a h d r hp hW hf
    simp only [Agent.update, hp, Agent.logEvent, navigateTo_path, hf,
      Option.isSome_none, Bool.false_eq_true, if_false]
    split_ifs
    all_goals try (rename_i hlast; exact absurd hlast hW)
    all_goals try exact ⟨by simp, by simp, by simp [hp]⟩
    all_goals (rename_i hlast
               exfalso
               simp only [hf, Option.isSome_none, Bool.false_eq_true] at hlast)
  · intro a h d r hp hf
    simp only [Agent.update, hp, Agent.logEvent, navigateTo_path, hf,
      Option.isSome_none, Bool.false_eq_true, if_false]
    split_ifs <;> simp [hp]
  · intro a t r np hf
    simp only [Agent.headHome, Agent.logEvent, navigateTo_path, hf,
      Option.isSome_none, Bool.false_eq_true, if_false]
    split_ifs <;>
      first
        | (refine ⟨by simp, by simp, ?_⟩
           exact decideLeisure_phase _ t r)
        | exact ⟨by simp, by simp, Or.inr (by simp)⟩

/-- Witness for the C3 amended theorem: the homebound clause applied to
`agC3`, whose route home is not-found. -/
theorem noRoute_noMove_witness :
    findPath cityE 2 0 0 0 = none ∧
    ((agC3.headHome 14 Phase.commuting_home_from_work 0).x = (agC3.home.1 : ℚ) ∧
     (agC3.headHome 14 Phase.commuting_home_from_work 0).y = (agC3.home.2 : ℚ) ∧
     ((agC3.headHome 14 Phase.commuting_home_from_work 0).phase =
        Phase.at_home_considering_leisure ∨
      (agC3.headHome 14 Phase.commuting_home_from_work 0).phase =
        Phase.at_home_evening)) :=
  ⟨by decide, noRoute_noMove.2.2.2.2 agC3 14 0 Phase.commuting_home_from_work (by decide)⟩

/-! ### Claim C4 -/

/-- A 3×23 city with a single vertical road in column 1. -/
def cityC4 : City :=
  { cols := 3, rows := 23,
    grid := fun _ x => if x = 1 then TILE.ROAD else TILE.EMPTY,
    names := fun _ _ => none }

/-- An agent (all draws 0) whose eatery `(0,22)` is 22 > 20 tiles from its
workplace `(2,0)` under Chebyshev distance, so it orders a delivery. -/
def agC4 : Agent :=
  Agent.create 0 (0, 0) (2, 0) none (some (0, 22)) cityC4 0 0 0 0 0 0 0 0 0 0 0

/-- A run of `agC4` whose first `at_work` tick falls at hour 53/5 = 10.6,
after its lunch-start hour 19/2 = 9.5. -/
def runC4 : Agent := runAgent agC4 [(112/20, 0, 0), (6, 0, 0), (21/2, 1, 0), (53/5, 0, 0)]

/-- C4 counterexample: `agC4` is a lunch-taking actor whose eatery is
farther than 20 Chebyshev tiles from its workplace, and the run `runC4`
logs its single "Ordered delivery" event at hour 53/5, which is *not*
strictly before its lunch-start hour 19/2 (the tick that first observes
the order window falls after lunch start). -/
theorem order_not_before_lunchStart :
    agC4.takesLunch = true ∧
    (20 : Nat) < max (agC4.workplace.1 - (agC4.eatery.getD (0, 0)).1).natAbs
      (agC4.workplace.2 - (agC4.eatery.getD (0, 0)).2).natAbs ∧
    agC4.ordersDelivery = true ∧
    agC4.lunchStart = QInf.fin (19 / 2) ∧
    (runC4.log.filter (fun en => en.event = "Ordered delivery")).map (fun en => en.time)
      = [53 / 5] ∧
    ¬ ((53 / 5 : ℚ) < 19 / 2) := by
  decide

/-- Number of "Left for lunch" entries in a log. -/
def countLunch (l : List LogEntry) : Nat :=
  List.countP (fun e => e.event == "Left for lunch") l

/-- A delivery-ordering agent never logs "Left for lunch". -/
theorem update_countLunch (a : Agent) (h d r : ℚ) (ho : a.ordersDelivery = true) :
    countLunch ((a.update h d r).log) = countLunch a.log := by
  cases hp : a.phase <;>
    ((simp only [Agent.update, Agent.headHome, Agent.logEvent, hp, moveStep_log,
        navigateTo_log, decideLeisure_log]) <;>
      first
        | rfl
        | (split_ifs <;>
            first
              | simp [countLunch]
              | (rename_i hns; exact absurd (by simp [ho]) hns)))

@[simp]
theorem logEvent_done (a : Agent) (e : String) (t : ℚ) (l : Option String) :
    (a.logEvent e t l).orderedDeliveryDone = a.orderedDeliveryDone := rfl

@[simp]
theorem moveStep_done (a : Agent) (d : ℚ) :
    (a.moveStep d).1.orderedDeliveryDone = a.orderedDeliveryDone := rfl

@[simp]
theorem navigateTo_done (a : Agent) (tgt : Cell) :
    (a.navigateTo tgt).orderedDeliveryDone = a.orderedDeliveryDone := by
  rcases h : findPath a.city (jsRound a.x) (jsRound a.y) tgt.1 tgt.2 with _ | pp
  · simp [Agent.navigateTo, h]
  · by_cases h2 : 1 < pp.length <;> simp [Agent.navigateTo, h, h2]

@[simp]
theorem decideLeisure_done (a : Agent) (t r : ℚ) :
    (a.decideLeisure t r).orderedDeliveryDone = a.orderedDeliveryDone := by
  unfold Agent.decideLeisure
  split_ifs <;> rfl

/-- Outside the `at_work` state, `Agent.update` logs no "Ordered delivery"
entry and leaves the already-ordered flag alone. -/
theorem update_countOrders_other (a : Agent) (h d r : ℚ) (hp : ¬ a.phase = Phase.at_work) :
    countOrders ((a.update h d r).log) = countOrders a.log ∧
    (a.update h d r).orderedDeliveryDone = a.orderedDeliveryDone := by
  cases hq : a.phase <;> try (exact absurd hq hp)
  all_goals
    ((simp only [Agent.update, Agent.headHome, Agent.logEvent, hq, moveStep_log,
        navigateTo_log, decideLeisure_log]) <;>
      constructor <;>
        first
          | rfl
          | trivial
          | (split_ifs <;> simp [countOrders]))

/-- In the `at_work` state, `Agent.update` logs exactly one
"Ordered delivery" entry and sets the already-ordered flag when the order
guard fires, and otherwise logs none and leaves the flag alone. -/
theorem update_countOrders_atwork (a : Agent) (h d r : ℚ) (hp : a.phase = Phase.at_work) :
    if a.ordersDelivery = true ∧ ¬ a.orderedDeliveryDone = true ∧ QInf.leNum a.orderTime h
    then countOrders ((a.update h d r).log) = countOrders a.log + 1 ∧
         (a.update h d r).orderedDeliveryDone = true
    else countOrders ((a.update h d r).log) = countOrders a.log ∧
         (a.update h d r).orderedDeliveryDone = a.orderedDeliveryDone := by
  simp only [Agent.update, Agent.headHome, Agent.logEvent, hp, moveStep_log,
    navigateTo_log, decideLeisure_log]
  split_ifs <;>
    constructor <;>
      first
        | rfl
        | simp [countOrders]

/-- The once-only invariant for delivery orders, preserved by every tick. -/
theorem update_order_once (a : Agent) (h d r : ℚ)
    (h0 : a.orderedDeliveryDone = false → countOrders a.log = 0)
    (h1 : countOrders a.log ≤ 1) :
    ((a.update h d r).orderedDeliveryDone = false →
      countOrders ((a.update h d r).log) = 0) ∧
    countOrders ((a.update h d r).log) ≤ 1 := by
  by_cases hp : a.phase = Phase.at_work
  · have hw := update_countOrders_atwork a h d r hp
    by_cases hc : a.ordersDelivery = true ∧ ¬ a.orderedDeliveryDone = true ∧
        QInf.leNum a.orderTime h
    · rw [if_pos hc] at hw
      have hz : countOrders a.log = 0 := h0 (by
        rcases hc with ⟨-, hnd, -⟩
        cases hv : a.orderedDeliveryDone
        · rfl
        · exact absurd hv hnd)
      refine ⟨fun hfalse => ?_, ?_⟩
      · rw [hw.2] at hfalse
        cases hfalse
      · rw [hw.1, hz]
    · rw [if_neg hc] at hw
      refine ⟨fun hfalse => ?_, ?_⟩
      · rw [hw.1]
        exact h0 (by rw [← hw.2]; exact hfalse)
      · rw [hw.1]
        exact h1
  · have hw := update_countOrders_other a h d r hp
    refine ⟨fun hfalse => ?_, ?_⟩
    · rw [hw.1]
      exact h0 (by rw [← hw.2]; exact hfalse)
    · rw [hw.1]
      exact h1

theorem runAgent_order_once (a : Agent) (ticks : List (ℚ × ℚ × ℚ))
    (h0 : a.orderedDeliveryDone = false → countOrders a.log = 0)
    (h1 : countOrders a.log ≤ 1) :
    countOrders ((runAgent a ticks).log) ≤ 1 := by
  induction ticks generalizing a with
  | nil => exact h1
  | cons t ts ih =>
    have hstep : runAgent a (t :: ts) = runAgent (a.update t.1 t.2.1 t.2.2) ts := rfl
    rw [hstep]
    obtain ⟨g0, g1⟩ := update_order_once a t.1 t.2.1 t.2.2 h0 h1
    exact ih _ g0 g1

theorem runAgent_countLunch (a : Agent) (ticks : List (ℚ × ℚ × ℚ))
    (ho : a.ordersDelivery = true) :
    countLunch ((runAgent a ticks).log) = countLunch a.log := by
  induction ticks generalizing a with
  | nil => rfl
  | cons t ts ih =>
    have hstep : runAgent a (t :: ts) = runAgent (a.update t.1 t.2.1 t.2.2) ts := rfl
    rw [hstep, ih _ (by rw [update_ordersDelivery]; exact ho),
      update_countLunch a t.1 t.2.1 t.2.2 ho]

/-- C4 amended: a lunch-taking actor whose eatery is farther than 20
Chebyshev tiles from its workplace sets `ordersDelivery`; its *scheduled*
order time is strictly before its lunch-start hour; during any run it logs
zero "Left for lunch" events and at most one "Ordered delivery" event (the
logged timestamp is the hour of the first `at_work` tick at or past the
order time, which need not itself be before lunch start). -/
theorem delivery_order_correct :
    (∀ (id : Nat) (home workplace : Cell) (ls : Option Cell) (ec : Cell) (city : City)
        (r1 r2 r3 r4 r5 r6 r7 r8 r9 r10 r11 : ℚ),
      (Agent.create id home workplace ls (some ec) city r1 r2 r3 r4 r5 r6 r7 r8 r9 r10
        r11).takesLunch = true →
      20 < max (workplace.1 - ec.1).natAbs (workplace.2 - ec.2).natAbs →
      (Agent.create id home workplace ls (some ec) city r1 r2 r3 r4 r5 r6 r7 r8 r9 r10
        r11).ordersDelivery = true) ∧
    (∀ (id : Nat) (home workplace : Cell) (ls eat : Option Cell) (city : City)
        (r1 r2 r3 r4 r5 r6 r7 r8 r9 r10 r11 : ℚ), 0 ≤ r8 →
      (Agent.create id home workplace ls eat city r1 r2 r3 r4 r5 r6 r7 r8 r9 r10
        r11).ordersDelivery = true →
      ∃ L T : ℚ,
        (Agent.create id home workplace ls eat city r1 r2 r3 r4 r5 r6 r7 r8 r9 r10
          r11).lunchStart = QInf.fin L ∧
        (Agent.create id home workplace ls eat city r1 r2 r3 r4 r5 r6 r7 r8 r9 r10
          r11).orderTime = QInf.fin T ∧ T < L) ∧
    (∀ (a : Agent) (ticks : List (ℚ × ℚ × ℚ)), a.ordersDelivery = true →
      countLunch ((runAgent a ticks).log) = countLunch a.log) ∧
    (∀ (id : Nat) (home workplace : Cell) (ls eat : Option Cell) (city : City)
        (r1 r2 r3 r4 r5 r6 r7 r8 r9 r10 r11 : ℚ) (ticks : List (ℚ × ℚ × ℚ)),
      countOrders ((runAgent (Agent.create id home workplace ls eat city r1 r2 r3 r4 r5
        r6 r7 r8 r9 r10 r11) ticks).log) ≤ 1) := by
  refine ⟨?_, ?_, ?_, ?_⟩
  · intro id home workplace ls ec city r1 r2 r3 r4 r5 r6 r7 r8 r9 r10 r11 ht hcheb
    simp only [Agent.create] at ht ⊢
    rw [ht, Bool.true_and]
    exact decide_eq_true hcheb
  · intro id home workplace ls eat city r1 r2 r3 r4 r5 r6 r7 r8 r9 r10 r11 hr8 ho
    have hsplit := ho
    simp only [Agent.create] at hsplit
    rw [Bool.and_eq_true] at hsplit
    obtain ⟨htl, hm⟩ := hsplit
    rw [Bool.and_eq_true] at htl
    obtain ⟨hdec, hsome⟩ := htl
    have hr5 := of_decide_eq_true hdec
    rcases heat : eat with _ | ec
    · rw [heat] at hsome
      cases hsome
    · rw [heat] at hm
      subst heat
      have hcheb : 20 < max (workplace.1 - ec.1).natAbs (workplace.2 - ec.2).natAbs :=
        of_decide_eq_true hm
    
      refine ⟨(jsRound ((6 + r2 * 3 + (7 + r4 * 3) / 2) * 2) : ℚ) / 2,
        (jsRound ((6 + r2 * 3 + (7 + r4 * 3) / 2) * 2) : ℚ) / 2 - (25 + r8 * 10) / 60,
        ?_, ?_, ?_⟩
      · simp [Agent.create]
        linarith
      · have hr5n : r5 < 2 / 5 + r6 * 5⁻¹ := by linarith
        simp [Agent.create, hr5n, hcheb, QInf.subQ]
      · have : (0 : ℚ) < (25 + r8 * 10) / 60 := by positivity
        linarith
  · exact fun a ticks ho => runAgent_countLunch a ticks ho
  · intro id home workplace ls eat city r1 r2 r3 r4 r5 r6 r7 r8 r9 r10 r11 ticks
    exact runAgent_order_once _ ticks (fun _ => rfl) (by simp [Agent.create, countOrders])

/-- Witness for the C4 amended theorem at the concrete actor `agC4` and the
run `runC4`. -/
theorem delivery_order_correct_witness :
    agC4.takesLunch = true ∧
    20 < max ((2 : Int) - 0).natAbs ((0 : Int) - 22).natAbs ∧
    agC4.ordersDelivery = true ∧
    countOrders (runC4.log) ≤ 1 :=
  ⟨by decide, by decide,
    delivery_order_correct.1 0 (0, 0) (2, 0) none (0, 22) cityC4 0 0 0 0 0 0 0 0 0 0 0
      (by decide) (by decide),
    delivery_order_correct.2.2.2 0 (0, 0) (2, 0) none (some (0, 22)) cityC4 0 0 0 0 0 0
      0 0 0 0 0 [(112/20, 0, 0), (6, 0, 0), (21/2, 1, 0), (53/5, 0, 0)]⟩

/-! ### Claim C5 -/

/-- A 500×1 city that is a single road row. -/
def cityC5 : City :=
  { cols := 500, rows := 1, grid := fun _ _ => TILE.ROAD,
    names := fun _ _ => none }

/-- An agent of `cityC5` with lunch-start hour 19/2 (all draws 0). -/
def agC5 : Agent :=
  Agent.create 0 (0, 0) (0, 0) none (some (0, 0)) cityC5 0 0 0 0 0 0 0 0 0 0 0

/-- A courier whose 500-cell route takes 499/7 real seconds, i.e.
(499/7)·(2/15) = 998/105 > 19/2 simulated hours. -/
def drvC5 : DeliveryDriver :=
  DeliveryDriver.create (0, 0) (499, 0) agC5 cityC5 (2 / 15) 0

/-- The straight 500-cell route of `cityC5`. -/
def straightC5 : List Cell := (List.range 500).map (fun i => (Int.ofNat i, 0))

/-- Any valid route covers at least the horizontal displacement of its
endpoints. -/
theorem hops_disp {city : City} {e : Cell} {a z : Cell} {n : Nat}
    (h : Hops city e a z n) : (z.1 - a.1).natAbs ≤ n := by
  induction h with
  | refl a => simp
  | step hstep hrest ih =>
    rename_i a' b' z' n'
    obtain ⟨hadj, -⟩ := hstep
    obtain ⟨d, hd, hb⟩ := hadj
    have hd1 : d.1.natAbs ≤ 1 := by
      simp only [dirs, List.mem_cons, List.not_mem_nil, or_false] at hd
      rcases hd with h1 | h1 | h1 | h1 <;> subst h1 <;> decide
    have hb1 : (b'.1 - a'.1).natAbs ≤ 1 := by
      rw [hb]
      simpa using hd1
    calc (z'.1 - a'.1).natAbs = ((z'.1 - b'.1) + (b'.1 - a'.1)).natAbs := by
          congr 1
          ring
      _ ≤ (z'.1 - b'.1).natAbs + (b'.1 - a'.1).natAbs := Int.natAbs_add_le _ _
      _ ≤ n' + 1 := Nat.add_le_add ih hb1

/-- Evaluation of the courier constructor's departure time on a found,
non-trivial route: the travel time is subtracted from the owner's
lunch-start hour and the result is clamped at zero. -/
theorem create_departureTime (eatery business : Cell) (agent : Agent) (city : City)
    (f rS : ℚ) (p : List Cell) (L : ℚ)
    (hL : agent.lunchStart = QInf.fin L)
    (hp : findPath city eatery.1 eatery.2 business.1 business.2 = some p)
    (hlen : 1 < p.length) :
    (DeliveryDriver.create eatery business agent city f rS).departureTime =
      QInf.fin (max 0 (L - (((p.length : ℚ) - 1) / (7 + rS * 2)) * f)) := by
  simp only [DeliveryDriver.create, hp, hL]
  rw [if_pos hlen]
  simp [QInf.subQ, QInf.max0]

set_option maxRecDepth 40000 in
set_option maxHeartbeats 2000000 in
/-- C5 counterexample: `drvC5` has a non-trivial 500-cell precomputed
route, but its departure time is the clamped value
`max(0, lunchStart − travel) = 0`, not `lunchStart − travel` (negative
here): its arrival cannot coincide with the owner's lunch start. -/
theorem courier_departure_clamped :
    agC5.lunchStart = QInf.fin (19 / 2) ∧
    Option.map List.length (findPath cityC5 0 0 499 0) = some 500 ∧
    drvC5.departureTime = QInf.fin 0 ∧
    ¬ drvC5.departureTime =
        QInf.fin (19 / 2 - (((500 : ℚ) - 1) / (7 + 0 * 2)) * (2 / 15)) := by
  have hs : inb cityC5 ((0 : Int), (0 : Int)) := by decide
  have he : inb cityC5 ((499 : Int), (0 : Int)) := by decide
  have hmain := @findPath_main cityC5 ((0 : Int), (0 : Int)) ((499 : Int), (0 : Int)) hs he
  have hchain : List.Chain' (stepRel cityC5 ((499 : Int), (0 : Int))) straightC5 := by
    rw [straightC5]
    have hmapc : ∀ a b : Nat,
        (fun a b : Nat =>
          stepRel cityC5 ((499 : Int), (0 : Int)) (Int.ofNat a, 0) (Int.ofNat b, 0)) a b →
        stepRel cityC5 ((499 : Int), (0 : Int)) (Int.ofNat a, 0) (Int.ofNat b, 0) :=
      fun a b hab => hab
    refine List.chain'_map_of_chain' _ hmapc ?_
    rw [show (500 : Nat) = Nat.succ 499 from rfl, List.chain'_range_succ]
    intro m hm
    refine ⟨⟨(1, 0), by simp [dirs], by simp⟩, ?_, Or.inl rfl⟩
    refine ⟨?_, ?_, ?_, ?_⟩ <;>
      simp only [cityC5, Int.ofNat_eq_natCast, Nat.succ_eq_add_one] <;> push_cast <;> omega
  have hstraight : ValidSeq cityC5 ((0 : Int), (0 : Int)) ((499 : Int), (0 : Int))
      straightC5 := ⟨by decide, by decide, hchain⟩
  have hslen : straightC5.length = 500 := by
    decide
  rcases hfp : findPath cityC5 0 0 499 0 with _ | p
  · exact absurd hstraight (hmain.2 hfp straightC5)
  · obtain ⟨hvalid, hmin, -⟩ := hmain.1 p hfp
    have hle : p.length ≤ 500 := by
      have h1 := hmin straightC5 hstraight
      rw [hslen] at h1
      exact h1
    have hpos : 0 < p.length := by
      cases p with
      | nil => simp [ValidSeq] at hvalid
      | cons a t => simp
    have hge : 500 ≤ p.length := by
      have hh := validSeq_hops hvalid
      have hd := hops_disp hh
      simp at hd
      omega
    have hlen : p.length = 500 := le_antisymm hle hge
    have hL : agC5.lunchStart = QInf.fin (19 / 2) := by decide
    have hdep := create_departureTime (0, 0) (499, 0) agC5 cityC5 (2 / 15) 0 p (19 / 2)
      hL hfp (by omega)
    rw [hlen] at hdep
    have hmax : max (0 : ℚ) (19 / 2 - (((500 : ℚ) : ℚ) - 1) / (7 + 0 * 2) * (2 / 15)) = 0 := by
      norm_num
    refine ⟨hL, ?_, ?_, ?_⟩
    · simp [hlen]
    · show (DeliveryDriver.create (0, 0) (499, 0) agC5 cityC5 (2 / 15) 0).departureTime =
        QInf.fin 0
      rw [hdep]
      norm_num
    · show ¬ (DeliveryDriver.create (0, 0) (499, 0) agC5 cityC5 (2 / 15)
          0).departureTime = _
      rw [hdep]
      intro hcontra
      rw [QInf.fin.injEq] at hcontra
      norm_num at hcontra

/-- C5 amended: a courier spawned with a non-trivial precomputed
eatery-to-workplace route departs at the owning actor's lunch-start hour
minus the route's travel time in simulated hours (hop count divided by the
courier's speed, times the sim-hours-per-real-second factor), *clamped at
zero*: `departureTime = max(0, lunchStart − travelTimeInSimulatedHours)`. -/
theorem courier_departure_correct (eatery business : Cell) (agent : Agent) (city : City)
    (f rS : ℚ) (p : List Cell) (L : ℚ)
    (hL : agent.lunchStart = QInf.fin L)
    (hp : findPath city eatery.1 eatery.2 business.1 business.2 = some p)
    (hlen : 1 < p.length) :
    (DeliveryDriver.create eatery business agent city f rS).departureTime =
      QInf.fin (max 0 (L - (((p.length : ℚ) - 1) / (7 + rS * 2)) * f)) :=
  create_departureTime eatery business agent city f rS p L hL hp hlen

/-- Witness for the C5 amended theorem: a concrete courier on `cityW` whose
5-cell route departs `(4/7)·(2/15)` simulated hours before lunch start. -/
theorem courier_departure_correct_witness :
    agW.lunchStart = QInf.fin (19 / 2) ∧
    findPath cityW 0 0 2 0 = some [(0, 0), (0, 1), (1, 1), (2, 1), (2, 0)] ∧
    1 < ([(0, 0), (0, 1), (1, 1), (2, 1), (2, 0)] : List Cell).length ∧
    (DeliveryDriver.create (0, 0) (2, 0) agW cityW (2 / 15) 0).departureTime =
      QInf.fin (max 0 (19 / 2 -
        (((([(0, 0), (0, 1), (1, 1), (2, 1), (2, 0)] : List Cell).length : ℚ) - 1) /
          (7 + 0 * 2)) * (2 / 15))) :=
  ⟨by decide, by decide, by decide,
    courier_departure_correct (0, 0) (2, 0) agW cityW (2 / 15) 0
      [(0, 0), (0, 1), (1, 1), (2, 1), (2, 0)] (19 / 2) (by decide) (by decide) (by decide)⟩

/-! ### Claim C6 -/

/-- A 52×3 city with a single road row at y = 1. -/
def cityC6 : City :=
  { cols := 52, rows := 3,
    grid := fun y _ => if y = 1 then TILE.ROAD else TILE.EMPTY,
    names := fun _ _ => none }

/-- An agent (all draws 0) with home `(0,0)`, workplace `(51,0)` and eatery
`(30,0)` (Chebyshev distance 21 > 20, so it orders a delivery). -/
def agC6 : Agent :=
  Agent.create 0 (0, 0) (51, 0) none (some (30, 0)) cityC6 0 0 0 0 0 0 0 0 0 0 0

/-- The courier spawned for `agC6`. -/
def drvC6 : DeliveryDriver :=
  DeliveryDriver.create (30, 0) (51, 0) agC6 cityC6 (2 / 15) 0

/-- A non-decreasing tick schedule under which the courier arrives at
hour 46/5 = 9.2 while the slow-commuting owner only logs its
"Ordered delivery" at hour 47/5 = 9.4. -/
def ticksC6 : List (ℚ × ℚ × ℚ) :=
  [(6, 1/100, 0), (91/10, 1/100, 0), (46/5, 10, 0), (93/10, 1, 0), (47/5, 0, 0),
   (19/2, 10, 0)]

/-- C6 counterexample: the courier `drvC6` reaches its terminal `done`
phase, yet the "Delivery by ..." entry it appended to its owner's log is
timestamped 46/5, strictly *before* the owner's "Ordered delivery"
timestamp 47/5: the courier's schedule never consults the owner's state. -/
theorem delivery_received_before_order :
    (runPair (agC6, drvC6) ticksC6).2.phase = DPhase.done ∧
    ((runPair (agC6, drvC6) ticksC6).1.log.filter
        (fun e => e.event = "Delivery by Eatery")).map (fun e => e.time) = [46/5] ∧
    ((runPair (agC6, drvC6) ticksC6).1.log.filter
        (fun e => e.event = "Ordered delivery")).map (fun e => e.time) = [47/5] ∧
    ¬ ((47 : ℚ) / 5 ≤ 46 / 5) := by
  decide

/-- A waiting courier whose departure time has not yet been reached does
nothing. -/
theorem driver_waiting_noop (dr : DeliveryDriver) (ag : Agent) (h d : ℚ)
    (hw : dr.phase = DPhase.waiting) (hnd : ¬ QInf.leNum dr.departureTime h) :
    dr.update ag h d = (dr, ag) := by
  simp only [DeliveryDriver.update, hw]
  rw [if_neg hnd]

/-- C6 amended: the courier's delivery event is tied to its own schedule,
not to the owner's log: (1) a waiting courier is inert before its departure
time; (2) a tick changes the owner's log only when the courier is
delivering, appending exactly the "Delivery by ..." entry timestamped with
the current hour; (3) the departure time never changes; (4) the delivering
phase is entered only from waiting at an hour at or past the departure
time; (5) over any run, a courier that left the waiting phase was released
by a tick at or past its departure time. The delivery timestamp is
therefore at or after `max(0, lunchStart − travel)`, but it is not bounded
by the owner's "ordered delivery" or lunch-end timestamps. -/
theorem delivery_time_within_schedule :
    (∀ (dr : DeliveryDriver) (ag : Agent) (h d : ℚ),
      dr.phase = DPhase.waiting → ¬ QInf.leNum dr.departureTime h →
      dr.update ag h d = (dr, ag)) ∧
    (∀ (dr : DeliveryDriver) (ag : Agent) (h d : ℚ),
      (dr.update ag h d).2.log = ag.log ∨
      (dr.phase = DPhase.delivering ∧ ∃ (n : String) (loc : Option String),
        (dr.update ag h d).2.log = ag.log ++ [⟨"Delivery by " ++ n, h, loc⟩])) ∧
    (∀ (dr : DeliveryDriver) (ag : Agent) (h d : ℚ),
      (dr.update ag h d).1.departureTime = dr.departureTime) ∧
    (∀ (dr : DeliveryDriver) (ag : Agent) (h d : ℚ),
      (dr.update ag h d).1.phase = DPhase.delivering →
      dr.phase = DPhase.delivering ∨
      (dr.phase = DPhase.waiting ∧ QInf.leNum dr.departureTime h)) ∧
    (∀ (a : Agent) (dr : DeliveryDriver) (ticks : List (ℚ × ℚ × ℚ)),
      dr.phase = DPhase.waiting →
      ((runPair (a, dr) ticks).2.phase = DPhase.waiting ∨
        ∃ t ∈ ticks, QInf.leNum dr.departureTime t.1)) := by
  refine ⟨driver_waiting_noop, ?_, ?_, ?_, ?_⟩
  · intro dr ag h d
    cases hp : dr.phase <;>
      simp only [DeliveryDriver.update, hp, Agent.logEvent] <;>
      first
        | exact Or.inl trivial
        | exact Or.inl rfl
        | (split_ifs <;>
            first
              | exact Or.inl trivial
              | exact Or.inl rfl
              | exact Or.inr ⟨trivial, _, _, rfl⟩)
  · intro dr ag h d
    cases hp : dr.phase <;>
      simp only [DeliveryDriver.update, hp] <;>
      first
        | rfl
        | (split_ifs <;>
            simp [DeliveryDriver.moveStep, DeliveryDriver.navigateTo])
  · intro dr ag h d
    cases hp : dr.phase <;> simp only [DeliveryDriver.update, hp] <;>
      first
        | (split_ifs with hc <;> intro hph <;>
            first
              | exact Or.inl trivial
              | exact Or.inr ⟨trivial, hc⟩
              | (have h2 : dr.phase = DPhase.delivering := hph
                 rw [hp] at h2
                 cases h2)
              | (split_ifs at hph <;> cases hph)
              | cases hph)
        | (intro hph
           first
             | exact Or.inl trivial
             | (have h2 : dr.phase = DPhase.delivering := hph
                rw [hp] at h2
                cases h2)
             | cases hph)
  · intro a dr ticks hw
    induction ticks generalizing a dr with
    | nil => exact Or.inl hw
    | cons t ts ih =>
      by_cases hdue : QInf.leNum dr.departureTime t.1
      · exact Or.inr ⟨t, List.mem_cons_self _ _, hdue⟩
      · have hstep : runPair (a, dr) (t :: ts) =
            runPair ((dr.update (a.update t.1 t.2.1 t.2.2) t.1 t.2.1).2,
              (dr.update (a.update t.1 t.2.1 t.2.2) t.1 t.2.1).1) ts := rfl
        rw [hstep, driver_waiting_noop dr _ t.1 t.2.1 hw hdue]
        rcases ih _ dr hw with h1 | ⟨t', ht', hle⟩
        · exact Or.inl h1
        · exact Or.inr ⟨t', List.mem_cons_of_mem _ ht', hle⟩

/-- Witness for the C6 amended theorem: the concrete courier `drvC6` is
inert at hour 6, before its departure time. -/
theorem delivery_time_within_schedule_witness :
    drvC6.phase = DPhase.waiting ∧
    ¬ QInf.leNum drvC6.departureTime 6 ∧
    drvC6.update agC6 6 1 = (drvC6, agC6) ∧
    ((runPair (agC6, drvC6) [(6, 1/100, 0)]).2.phase = DPhase.waiting ∨
      ∃ t ∈ [((6 : ℚ), (1/100 : ℚ), (0 : ℚ))], QInf.leNum drvC6.departureTime t.1) :=
  ⟨by decide, by decide,
    delivery_time_within_schedule.1 drvC6 agC6 6 1 (by decide) (by decide),
    delivery_time_within_schedule.2.2.2.2 agC6 drvC6 [(6, 1/100, 0)] (by decide)⟩
